import Mathlib

/-!
Verification of the miniGit core against its design document.

The development shallowly embeds the C++ sources (src/objects.cpp,
src/index.cpp, src/branch.cpp, src/repository.cpp, src/merkle.cpp,
src/utils.cpp, include/sha1.hpp) in Lean.  C++ byte strings are
modelled as lists of byte values, std::map as a sorted association
list, and the filesystem side effects of each operation as explicit
state passing on a repository record.  All definitions are executable
so that theorems can be checked on concrete repositories.
-/

set_option maxRecDepth 400000
set_option maxHeartbeats 2000000

namespace minigit

/-- Byte strings: the model of C++ std::string values (one Nat per byte). -/
abbrev Bytes := List Nat

/-- Bytes of an ASCII string literal (used to transcribe the literals of the source). -/
def ascii (s : String) : Bytes := s.data.map Char.toNat

/-- Lexicographic byte-wise comparison, the std::string operator< used by
std::map, std::set and std::sort in the source. -/
def bytesLt : Bytes → Bytes → Bool
  | _, [] => false
  | [], _ :: _ => true
  | a :: as, b :: bs => if a < b then true else if b < a then false else bytesLt as bs

theorem bytesLt_irrefl (a : Bytes) : bytesLt a a = false := by
  induction a with
  | nil => rfl
  | cons x xs ih => simp [bytesLt, ih]

theorem bytesLt_asymm {a b : Bytes} (h : bytesLt a b = true) : bytesLt b a = false := by
  induction a generalizing b with
  | nil =>
    cases b with
    | nil => simp [bytesLt] at h
    | cons y ys => rfl
  | cons x xs ih =>
    cases b with
    | nil => simp [bytesLt] at h
    | cons y ys =>
      simp only [bytesLt] at h ⊢
      rcases Nat.lt_trichotomy x y with hxy | hxy | hxy
      · simp [hxy, Nat.lt_asymm hxy, Nat.ne_of_gt hxy]
      · subst hxy
        simp only [lt_irrefl, if_false] at h ⊢
        exact ih h
      · simp [hxy, Nat.lt_asymm hxy] at h

theorem bytesLt_trans {a b c : Bytes} (h1 : bytesLt a b = true) (h2 : bytesLt b c = true) :
    bytesLt a c = true := by
  induction a generalizing b c with
  | nil =>
    cases c with
    | nil =>
      cases b with
      | nil => exact h1
      | cons y ys => simp [bytesLt] at h2
    | cons z zs => rfl
  | cons x xs ih =>
    cases b with
    | nil => simp [bytesLt] at h1
    | cons y ys =>
      cases c with
      | nil => simp [bytesLt] at h2
      | cons z zs =>
        simp only [bytesLt] at h1 h2 ⊢
        rcases Nat.lt_trichotomy x y with hxy | hxy | hxy
        · rcases Nat.lt_trichotomy y z with hyz | hyz | hyz
          · simp [Nat.lt_trans hxy hyz, Nat.lt_asymm (Nat.lt_trans hxy hyz)]
          · subst hyz; simp [hxy, Nat.lt_asymm hxy]
          · simp [hyz, Nat.lt_asymm hyz] at h2
        · subst hxy
          simp only [lt_irrefl, if_false] at h1
          rcases Nat.lt_trichotomy x z with hyz | hyz | hyz
          · simp [hyz, Nat.lt_asymm hyz]
          · subst hyz
            simp only [lt_irrefl, if_false] at h2 ⊢
            exact ih h1 h2
          · simp [hyz, Nat.lt_asymm hyz] at h2
        · simp [hxy, Nat.lt_asymm hxy] at h1

theorem bytesLt_total (a b : Bytes) :
    a = b ∨ bytesLt a b = true ∨ bytesLt b a = true := by
  induction a generalizing b with
  | nil =>
    cases b with
    | nil => exact Or.inl rfl
    | cons y ys => exact Or.inr (Or.inl rfl)
  | cons x xs ih =>
    cases b with
    | nil => exact Or.inr (Or.inr rfl)
    | cons y ys =>
      rcases Nat.lt_trichotomy x y with hxy | hxy | hxy
      · exact Or.inr (Or.inl (by simp [bytesLt, hxy]))
      · subst hxy
        rcases ih ys with h | h | h
        · exact Or.inl (by rw [h])
        · exact Or.inr (Or.inl (by simp [bytesLt, h]))
        · exact Or.inr (Or.inr (by simp [bytesLt, h]))
      · exact Or.inr (Or.inr (by simp [bytesLt, hxy, Nat.lt_asymm hxy]))

theorem bytesLt_ne {a b : Bytes} (h : bytesLt a b = true) : a ≠ b := by
  intro he; subst he; simp [bytesLt_irrefl] at h

/-- Sorted association list with Bytes keys: the model of std::map<string, V>.
Entries are kept strictly sorted by key, matching iteration order of std::map. -/
abbrev Assoc (α : Type) := List (Bytes × α)

/-- Insertion preserving strict key order (std::map operator[] assignment). -/
def amInsert {α : Type} (k : Bytes) (v : α) : Assoc α → Assoc α
  | [] => [(k, v)]
  | (k1, v1) :: rest =>
    if bytesLt k k1 then (k, v) :: (k1, v1) :: rest
    else if k = k1 then (k, v) :: rest
    else (k1, v1) :: amInsert k v rest

/-- Key lookup (std::map find / count / operator[] read). -/
def amFind {α : Type} (k : Bytes) : Assoc α → Option α
  | [] => none
  | (k1, v1) :: rest => if k = k1 then some v1 else amFind k rest

/-- The keys of a map in iteration order. -/
def amKeys {α : Type} (m : Assoc α) : List Bytes := m.map Prod.fst

/-- Strict sortedness of the key sequence, the std::map representation invariant. -/
def amSorted {α : Type} (m : Assoc α) : Prop :=
  List.Chain' (fun a b => bytesLt a.1 b.1 = true) m

instance {α : Type} (m : Assoc α) : Decidable (amSorted m) := by
  unfold amSorted; infer_instance

theorem amFind_amInsert_self {α : Type} (k : Bytes) (v : α) (m : Assoc α) :
    amFind k (amInsert k v m) = some v := by
  induction m with
  | nil => simp [amInsert, amFind]
  | cons hd tl ih =>
    obtain ⟨k1, v1⟩ := hd
    by_cases hlt : bytesLt k k1 = true
    · simp [amInsert, hlt, amFind]
    · by_cases heq : k = k1
      · subst heq; simp [amInsert, hlt, amFind, bytesLt_irrefl]
      · simp [amInsert, hlt, heq, amFind, ih]

theorem amFind_amInsert_ne {α : Type} {k q : Bytes} (hne : q ≠ k) (v : α) (m : Assoc α) :
    amFind q (amInsert k v m) = amFind q m := by
  induction m with
  | nil => simp [amInsert, amFind, hne]
  | cons hd tl ih =>
    obtain ⟨k1, v1⟩ := hd
    by_cases hlt : bytesLt k k1 = true
    · simp [amInsert, hlt, amFind, hne]
    · by_cases heq : k = k1
      · subst heq; simp [amInsert, hlt, amFind, hne]
      · by_cases hq : q = k1
        · simp [amInsert, hlt, heq, amFind, hq]
        · simp [amInsert, hlt, heq, amFind, hq, ih]

theorem amInsert_comm {α : Type} {k1 k2 : Bytes} (hne : k1 ≠ k2) (v1 v2 : α) (m : Assoc α) :
    amInsert k1 v1 (amInsert k2 v2 m) = amInsert k2 v2 (amInsert k1 v1 m) := by
  have htot := bytesLt_total k1 k2
  rcases htot with h | h12 | h21
  · exact absurd h hne
  · have h21f : bytesLt k2 k1 = false := bytesLt_asymm h12
    induction m with
    | nil => simp [amInsert, h12, h21f, hne, Ne.symm hne]
    | cons hd tl ih =>
      obtain ⟨k, v⟩ := hd
      rcases bytesLt_total k2 k with hek | hlt2 | hgt2
      · subst hek
        have h1k : bytesLt k1 k2 = true := h12
        simp [amInsert, h1k, h21f, bytesLt_irrefl, hne, Ne.symm hne]
      · have h1k : bytesLt k1 k = true := bytesLt_trans h12 hlt2
        simp [amInsert, hlt2, h1k, h12, h21f, hne, Ne.symm hne]
      · have hkne2 : k ≠ k2 := bytesLt_ne hgt2
        have hk2f : bytesLt k2 k = false := bytesLt_asymm hgt2
        rcases bytesLt_total k1 k with hek | hlt1 | hgt1
        · subst hek
          simp [amInsert, hk2f, Ne.symm hkne2, bytesLt_irrefl, h12, h21f, hne, Ne.symm hne,
            bytesLt_asymm hgt2]
        · simp [amInsert, hk2f, Ne.symm hkne2, hlt1, h12, h21f, hne, Ne.symm hne, hgt2]
        · have hkne1 : k ≠ k1 := bytesLt_ne hgt1
          have hk1f : bytesLt k1 k = false := bytesLt_asymm hgt1
          simp only [amInsert, hk2f, if_false, Ne.symm hkne2, hk1f, Ne.symm hkne1]
          exact congrArg (List.cons (k, v)) ih
  · have h12f : bytesLt k1 k2 = false := bytesLt_asymm h21
    induction m with
    | nil => simp [amInsert, h21, h12f, hne, Ne.symm hne]
    | cons hd tl ih =>
      obtain ⟨k, v⟩ := hd
      rcases bytesLt_total k1 k with hek | hlt1 | hgt1
      · subst hek
        simp [amInsert, h21, h12f, bytesLt_irrefl, hne, Ne.symm hne]
      · have h2k : bytesLt k2 k = true := bytesLt_trans h21 hlt1
        simp [amInsert, hlt1, h2k, h21, h12f, hne, Ne.symm hne]
      · have hkne1 : k ≠ k1 := bytesLt_ne hgt1
        have hk1f : bytesLt k1 k = false := bytesLt_asymm hgt1
        rcases bytesLt_total k2 k with hek | hlt2 | hgt2
        · subst hek
          simp [amInsert, hk1f, Ne.symm hkne1, bytesLt_irrefl, h21, h12f, hne, Ne.symm hne,
            bytesLt_asymm hgt1]
        · simp [amInsert, hk1f, Ne.symm hkne1, hlt2, h21, h12f, hne, Ne.symm hne, hgt1]
        · have hkne2 : k ≠ k2 := bytesLt_ne hgt2
          have hk2f : bytesLt k2 k = false := bytesLt_asymm hgt2
          simp only [amInsert, hk1f, if_false, Ne.symm hkne1, hk2f, Ne.symm hkne2]
          exact congrArg (List.cons (k, v)) ih

theorem amSorted_amInsert {α : Type} (k : Bytes) (v : α) {m : Assoc α} (hm : amSorted m) :
    amSorted (amInsert k v m) := by
  induction m with
  | nil => simp [amInsert, amSorted]
  | cons hd tl ih =>
    obtain ⟨k1, v1⟩ := hd
    have htl : amSorted tl := (List.chain'_cons'.mp hm).2
    unfold amSorted
    by_cases hlt : bytesLt k k1 = true
    · simp only [amInsert, if_pos hlt]
      refine List.chain'_cons'.mpr ⟨fun y hy => ?_, hm⟩
      simp only [List.head?_cons, Option.mem_def, Option.some.injEq] at hy
      subst hy; exact hlt
    · by_cases heq : k = k1
      · subst heq
        simp only [amInsert, hlt, if_false, if_pos rfl]
        refine List.chain'_cons'.mpr ⟨fun y hy => ?_, htl⟩
        exact (List.chain'_cons'.mp hm).1 y hy
      · simp only [amInsert, hlt, if_false, if_neg heq]
        refine List.chain'_cons'.mpr ⟨fun y hy => ?_, ih htl⟩
        rcases bytesLt_total k k1 with h | h | h
        · exact absurd h heq
        · exact absurd h hlt
        · cases tl with
          | nil =>
            simp only [amInsert, List.head?_cons, Option.mem_def, Option.some.injEq] at hy
            subst hy; exact h
          | cons hd2 tl2 =>
            obtain ⟨k2, v2⟩ := hd2
            by_cases hlt2 : bytesLt k k2 = true
            · simp [amInsert, hlt2] at hy
              subst hy; exact h
            · by_cases heq2 : k = k2
              · simp [amInsert, hlt2, heq2, bytesLt_irrefl] at hy
                subst hy; simpa using heq2 ▸ h
              · simp [amInsert, hlt2, heq2] at hy
                subst hy
                exact (List.chain'_cons'.mp hm).1 (k2, v2) (by simp)

theorem amSorted_keys_nodup {α : Type} {m : Assoc α} (h : amSorted m) :
    (amKeys m).Nodup := by
  haveI : IsTrans (Bytes × α) (fun a b => bytesLt a.1 b.1 = true) :=
    ⟨fun _ _ _ hab hbc => bytesLt_trans hab hbc⟩
  have hp : m.Pairwise (fun a b => bytesLt a.1 b.1 = true) :=
    (List.chain'_iff_pairwise.mp h)
  have : (amKeys m).Pairwise (fun a b => bytesLt a b = true) := by
    unfold amKeys
    exact (List.pairwise_map).mpr hp
  exact this.imp (fun hab => bytesLt_ne hab)

theorem amFind_eq_none_iff {α : Type} {k : Bytes} {m : Assoc α} :
    amFind k m = none ↔ k ∉ amKeys m := by
  induction m with
  | nil => simp [amFind, amKeys]
  | cons hd tl ih =>
    obtain ⟨k1, v1⟩ := hd
    by_cases heq : k = k1
    · subst heq; simp [amFind, amKeys]
    · simp [amFind, amKeys, heq, ih]

theorem amFind_isSome_iff {α : Type} {k : Bytes} {m : Assoc α} :
    (amFind k m).isSome = true ↔ k ∈ amKeys m := by
  rcases h : amFind k m with _ | v
  · simpa [h] using amFind_eq_none_iff.mp h
  · simp only [Option.isSome_some, true_iff]
    by_contra hk
    rw [amFind_eq_none_iff.mpr hk] at h
    cases h

theorem amFind_isSome_amInsert {α : Type} (k k2 : Bytes) (v : α) (m : Assoc α)
    (hk : (amFind k m).isSome = true) : (amFind k (amInsert k2 v m)).isSome = true := by
  by_cases he : k = k2
  · subst he; simp [amFind_amInsert_self]
  · simpa [amFind_amInsert_ne he] using hk

/-- Sorted insertion into a list of keys: the model of std::set<string>::insert. -/
def insertKey (k : Bytes) : List Bytes → List Bytes
  | [] => [k]
  | k1 :: rest =>
    if bytesLt k k1 then k :: k1 :: rest
    else if k = k1 then k1 :: rest
    else k1 :: insertKey k rest

theorem mem_insertKey {q k : Bytes} {l : List Bytes} :
    q ∈ insertKey k l ↔ q = k ∨ q ∈ l := by
  induction l with
  | nil => simp [insertKey]
  | cons k1 rest ih =>
    by_cases hlt : bytesLt k k1 = true
    · simp [insertKey, hlt]
    · by_cases heq : k = k1
      · subst heq
        simp only [insertKey, hlt, if_false, if_pos rfl]
        constructor
        · intro h; exact Or.inr h
        · rintro (h | h)
          · subst h; simp
          · exact h
      · simp [insertKey, hlt, heq, ih, or_left_comm]

/-- Strictly sorted key list, the std::set representation invariant. -/
def keysSorted (l : List Bytes) : Prop := List.Chain' (fun a b => bytesLt a b = true) l

instance (l : List Bytes) : Decidable (keysSorted l) := by
  unfold keysSorted; infer_instance

theorem keysSorted_insertKey {k : Bytes} {l : List Bytes} (hl : keysSorted l) :
    keysSorted (insertKey k l) := by
  induction l with
  | nil => simp [insertKey, keysSorted]
  | cons k1 rest ih =>
    have hrest : keysSorted rest := (List.chain'_cons'.mp hl).2
    unfold keysSorted
    by_cases hlt : bytesLt k k1 = true
    · simp only [insertKey, if_pos hlt]
      refine List.chain'_cons'.mpr ⟨fun y hy => ?_, hl⟩
      simp only [List.head?_cons, Option.mem_def, Option.some.injEq] at hy
      subst hy; exact hlt
    · by_cases heq : k = k1
      · subst heq; simpa [insertKey, hlt] using hl
      · simp only [insertKey, hlt, if_false, if_neg heq]
        refine List.chain'_cons'.mpr ⟨fun y hy => ?_, ih hrest⟩
        rcases bytesLt_total k k1 with h | h | h
        · exact absurd h heq
        · exact absurd h hlt
        · cases rest with
          | nil =>
            simp only [insertKey, List.head?_cons, Option.mem_def, Option.some.injEq] at hy
            subst hy; exact h
          | cons k2 rest2 =>
            by_cases hlt2 : bytesLt k k2 = true
            · simp [insertKey, hlt2] at hy
              subst hy; exact h
            · by_cases heq2 : k = k2
              · simp [insertKey, hlt2, heq2, bytesLt_irrefl] at hy
                subst hy; exact heq2 ▸ h
              · simp [insertKey, hlt2, heq2] at hy
                subst hy
                exact (List.chain'_cons'.mp hl).1 k2 (by simp)

theorem keysSorted_nodup {l : List Bytes} (h : keysSorted l) : l.Nodup := by
  haveI : IsTrans Bytes (fun a b => bytesLt a b = true) :=
    ⟨fun _ _ _ hab hbc => bytesLt_trans hab hbc⟩
  have hp : l.Pairwise (fun a b => bytesLt a b = true) := List.chain'_iff_pairwise.mp h
  exact hp.imp (fun hab => bytesLt_ne hab)

/-- Accumulate a list of keys into a sorted set, the std::set built by the
merge loop from the paths of both snapshots. -/
def keySet (ks : List Bytes) : List Bytes :=
  ks.foldl (fun l k => insertKey k l) []

theorem mem_foldl_insertKey {q : Bytes} (ks : List Bytes) (l0 : List Bytes) :
    q ∈ ks.foldl (fun l k => insertKey k l) l0 ↔ q ∈ l0 ∨ q ∈ ks := by
  induction ks generalizing l0 with
  | nil => simp
  | cons k rest ih =>
    simp only [List.foldl_cons, ih, mem_insertKey, List.mem_cons]
    tauto

theorem mem_keySet {q : Bytes} {ks : List Bytes} : q ∈ keySet ks ↔ q ∈ ks := by
  unfold keySet
  simp [mem_foldl_insertKey]

theorem keysSorted_foldl_insertKey (ks : List Bytes) {l0 : List Bytes} (h0 : keysSorted l0) :
    keysSorted (ks.foldl (fun l k => insertKey k l) l0) := by
  induction ks generalizing l0 with
  | nil => exact h0
  | cons k rest ih => exact ih (keysSorted_insertKey h0)

theorem keysSorted_keySet (ks : List Bytes) : keysSorted (keySet ks) :=
  keysSorted_foldl_insertKey ks (by simp [keysSorted])

/-! ### SHA-1, as implemented in include/sha1.hpp

The class keeps five 32-bit digest words, a 64-byte buffer and a byte
counter; update() feeds bytes into the buffer and runs transform() on
each full block; final() pads and produces 40 lowercase hex characters.
All 32-bit arithmetic is modelled on Nat with explicit reduction
modulo 2^32. -/

/-- 2^32, the modulus of the uint32_t arithmetic in sha1.hpp. -/
def pow32 : Nat := 4294967296

/-- Circular left rotation of a 32-bit word (SHA1::left_rotate). -/
def leftRotate (value count : Nat) : Nat :=
  ((value <<< count) % pow32) ||| (value >>> (32 - count))

/-- Bitwise complement on a 32-bit word (operator~ on uint32_t). -/
def not32 (b : Nat) : Nat := (pow32 - 1) - b

/-- The 16 initial words of the message schedule, big-endian from the block. -/
def blockWords (block : Bytes) : List Nat :=
  (List.range 16).map (fun i =>
    ((block.getD (i * 4) 0) <<< 24) ||| ((block.getD (i * 4 + 1) 0) <<< 16) |||
      ((block.getD (i * 4 + 2) 0) <<< 8) ||| (block.getD (i * 4 + 3) 0))

/-- Extend the schedule: repeatedly append
leftRotate (w[i-3] xor w[i-8] xor w[i-14] xor w[i-16]) 1, keeping the
words accumulated so far in reverse order. -/
def extendWords : Nat → List Nat → List Nat
  | 0, acc => acc.reverse
  | n + 1, acc =>
    extendWords n
      (leftRotate ((acc.getD 2 0) ^^^ (acc.getD 7 0) ^^^ (acc.getD 13 0) ^^^ (acc.getD 15 0)) 1
        :: acc)

/-- The 80-word message schedule of a block. -/
def schedule (block : Bytes) : List Nat :=
  extendWords 64 (blockWords block).reverse

/-- The 80 mixing rounds (the main loop of SHA1::transform); the round
function and constant depend on the round index i. -/
def mainRounds : List Nat → Nat → Nat × Nat × Nat × Nat × Nat → Nat × Nat × Nat × Nat × Nat
  | [], _, st => st
  | wi :: ws, i, (a, b, c, d, e) =>
    let f :=
      if i < 20 then (b &&& c) ||| ((not32 b) &&& d)
      else if i < 40 then b ^^^ c ^^^ d
      else if i < 60 then (b &&& c) ||| (b &&& d) ||| (c &&& d)
      else b ^^^ c ^^^ d
    let k :=
      if i < 20 then 0x5A827999
      else if i < 40 then 0x6ED9EBA1
      else if i < 60 then 0x8F1BBCDC
      else 0xCA62C1D6
    let temp := (leftRotate a 5 + f + e + k + wi) % pow32
    mainRounds ws (i + 1) (temp, a, leftRotate b 30, c, d)

/-- One SHA1::transform step on the five digest words. -/
def transform (dg : List Nat) (block : Bytes) : List Nat :=
  let (a, b, c, d, e) :=
    mainRounds (schedule block) 0
      (dg.getD 0 0, dg.getD 1 0, dg.getD 2 0, dg.getD 3 0, dg.getD 4 0)
  [(dg.getD 0 0 + a) % pow32, (dg.getD 1 0 + b) % pow32, (dg.getD 2 0 + c) % pow32,
    (dg.getD 3 0 + d) % pow32, (dg.getD 4 0 + e) % pow32]

/-- Running state of a SHA1 object: digest words, pending buffer, and the
count of bytes already consumed by transform (message_len). -/
structure Sha1St where
  dg : List Nat
  buffer : Bytes
  messageLen : Nat

/-- The freshly reset state (SHA1::reset). -/
def sha1Init : Sha1St :=
  ⟨[0x67452301, 0xEFCDAB89, 0x98BADCFE, 0x10325476, 0xC3D2E1F0], [], 0⟩

/-- Feed one byte (loop body of SHA1::update). -/
def sha1Byte (st : Sha1St) (b : Nat) : Sha1St :=
  let buf := st.buffer ++ [b]
  if buf.length = 64 then ⟨transform st.dg buf, [], st.messageLen + 64⟩
  else ⟨st.dg, buf, st.messageLen⟩

/-- SHA1::update on a byte string. -/
def sha1Update (st : Sha1St) (data : Bytes) : Sha1St :=
  data.foldl sha1Byte st

/-- Render a nibble as a lowercase hex character code. -/
def hexChar (n : Nat) : Nat := if n < 10 then 48 + n else 87 + n

/-- Render a 32-bit word as 8 lowercase hex character codes. -/
def hex8 (w : Nat) : Bytes :=
  (List.range 8).map (fun i => hexChar ((w >>> ((7 - i) * 4)) &&& 15))

/-- Render the five digest words as the 40-character hex string. -/
def hexDigest (dg : List Nat) : Bytes := (dg.map hex8).flatten

/-- The 8-byte big-endian encoding of the bit length (step 3 of SHA1::final). -/
def lengthBytes (totalBits : Nat) : Bytes :=
  (List.range 8).map (fun i => (totalBits >>> (56 - i * 8)) &&& 255)

/-- SHA1::final as written in sha1.hpp.  Note the order in which the final
block is assembled there: the 0x80 byte first, then the zero padding,
then the still-buffered message tail, then the length.  (The SHA-1
specification, quoted in the comments of the same file, places the
message tail first; see standardSha1 below.) -/
def sha1FinalBuggy (st : Sha1St) : Bytes :=
  let totalBits := st.messageLen * 8 + st.buffer.length * 8
  let (dg, buf) :=
    if st.buffer.length > 55 then
      (transform st.dg (st.buffer ++ List.replicate (64 - st.buffer.length) 0), ([] : Bytes))
    else (st.dg, st.buffer)
  let finalBlock := 128 :: (List.replicate (55 - buf.length) 0 ++ buf ++ lengthBytes totalBits)
  hexDigest (transform dg finalBlock)

/-- calculateHash of src/objects.cpp: SHA1 of a byte string via
update + final, exactly as the repository computes every digest. -/
def calculateHash (content : Bytes) : Bytes :=
  sha1FinalBuggy (sha1Update sha1Init content)

/-- Final block assembly of the SHA-1 specification (FIPS 180: message
tail, then 0x80, then zero padding, then the 64-bit length).  This is the
reference the design document appeals to when it says a blob digest is
"the standard SHA-1 digest of those exact bytes". -/
def sha1FinalStd (st : Sha1St) : Bytes :=
  let totalBits := st.messageLen * 8 + st.buffer.length * 8
  if st.buffer.length > 55 then
    let dg := transform st.dg (st.buffer ++ 128 :: List.replicate (63 - st.buffer.length) 0)
    hexDigest (transform dg (List.replicate 56 0 ++ lengthBytes totalBits))
  else
    hexDigest
      (transform st.dg
        (st.buffer ++ 128 :: (List.replicate (55 - st.buffer.length) 0 ++ lengthBytes totalBits)))

/-- Standard SHA-1 of a byte string (reference implementation). -/
def standardSha1 (content : Bytes) : Bytes :=
  sha1FinalStd (sha1Update sha1Init content)

/-- Decimal digit rendering worker (most significant digit first); the
fuel argument only bounds the recursion and any value at least the digit
count is enough. -/
def decDigits : Nat → Nat → Bytes
  | 0, _ => []
  | fuel + 1, n => if n < 10 then [48 + n] else decDigits fuel (n / 10) ++ [48 + n % 10]

/-- Decimal rendering of a number, as std::to_string produces it. -/
def decimalB (n : Nat) : Bytes := decDigits (n + 1) n

theorem mem_decDigits_bounds {fuel n b : Nat} (h : b ∈ decDigits fuel n) :
    48 ≤ b ∧ b ≤ 57 := by
  induction fuel generalizing n with
  | zero => simp [decDigits] at h
  | succ fuel ih =>
    by_cases hn : n < 10
    · simp [decDigits, hn] at h
      omega
    · simp only [decDigits, hn, if_false, List.mem_append, List.mem_singleton] at h
      rcases h with h | h
      · exact ih h
      · have : n % 10 < 10 := Nat.mod_lt _ (by omega)
        omega

theorem mem_decimalB_bounds {n b : Nat} (h : b ∈ decimalB n) : 48 ≤ b ∧ b ≤ 57 :=
  mem_decDigits_bounds h

/-! ### Byte-string parsing helpers shared by the source files -/

/-- Does the byte string start with the given run of bytes?  This is the
rfind(prefixStr, 0) == 0 idiom of repository.cpp. -/
def startsB : Bytes → Bytes → Bool
  | [], _ => true
  | _ :: _, [] => false
  | a :: as, b :: bs => a = b && startsB as bs

/-- Does the byte string contain the given run of bytes anywhere?  This is
the find(sub) != npos idiom of merkle.cpp. -/
def containsB (sub : Bytes) : Bytes → Bool
  | [] => startsB sub []
  | b :: bs => startsB sub (b :: bs) || containsB sub bs

/-- Worker for splitLines: accumulate the current line (reversed) until a
newline byte, as repeated std::getline calls do. -/
def linesGo (cur : Bytes) : Bytes → List Bytes
  | [] => [cur.reverse]
  | b :: rest =>
    if b = 10 then
      match rest with
      | [] => [cur.reverse]
      | r :: rs => cur.reverse :: linesGo [] (r :: rs)
    else linesGo (b :: cur) rest

/-- All lines produced by a std::getline loop on a stream holding the given
bytes (the final fragment without a newline is also a line; an empty
stream produces no lines). -/
def splitLines : Bytes → List Bytes
  | [] => []
  | b :: bs => linesGo [] (b :: bs)

/-- The whitespace bytes of operator>> extraction. -/
def isWsB (b : Nat) : Bool := b = 32 || b = 9 || b = 10 || b = 11 || b = 12 || b = 13

/-- Worker for tokensB: accumulate the current token (reversed). -/
def tokensGo (cur : Bytes) : Bytes → List Bytes
  | [] => if cur = [] then [] else [cur.reverse]
  | b :: rest =>
    if isWsB b then
      if cur = [] then tokensGo [] rest else cur.reverse :: tokensGo [] rest
    else tokensGo (b :: cur) rest

/-- Whitespace-separated tokens of a byte string, as successive operator>>
reads on a stringstream produce them. -/
def tokensB (bs : Bytes) : List Bytes := tokensGo [] bs

/-- Split a serialized object at its first null byte: the header/payload
separator of the object format (find of the null byte). -/
def splitNull : Bytes → Option (Bytes × Bytes)
  | [] => none
  | b :: bs =>
    if b = 0 then some ([], bs)
    else (splitNull bs).map (fun p => (b :: p.1, p.2))

/-! ### Object database, src/objects.cpp

The two-level objects directory keyed by digest prefix and suffix is in
bijection with the digest, so the store is modelled as a map from digest
to the raw stored bytes. -/

/-- Object store state: digest to raw serialized bytes. -/
abbrev Store := Assoc Bytes

/-- writeObject: hash the full serialized content, store the bytes under
that digest, return the digest.  The C++ function creates the two-level
directory and (re)writes the file unconditionally; on the store map this
is an insert at the digest key. -/
def writeObject (content : Bytes) (σ : Store) : Bytes × Store :=
  let h := calculateHash content
  (h, amInsert h content σ)

/-- readObject: raw bytes of the stored object, or the empty string when
the object file does not exist. -/
def readObject (σ : Store) (h : Bytes) : Bytes :=
  (amFind h σ).getD []

/-- Serialized form of a blob with the "blob <byteLength>\x00" header, as
built by hashObject of src/objects.cpp and getFileHash of src/utils.cpp. -/
def serializeBlob (content : Bytes) : Bytes :=
  ascii "blob " ++ decimalB content.length ++ 0 :: content

/-- hashObject: serialize file content as a blob and write it to the store. -/
def hashObject (content : Bytes) (σ : Store) : Bytes × Store :=
  writeObject (serializeBlob content) σ

/-- getFileHash of src/utils.cpp: digest of the blob serialization of the
file content, without writing the object. -/
def getFileHash (content : Bytes) : Bytes :=
  calculateHash (serializeBlob content)

/-- readBlobContent: everything after the first null byte of the stored
object, or the empty string on a missing object or missing separator. -/
def readBlobContent (σ : Store) (h : Bytes) : Bytes :=
  let raw := readObject σ h
  if raw = [] then []
  else
    match splitNull raw with
    | none => []
    | some p => p.2

/-- An index entry: mode string and blob digest (include/types.hpp). -/
structure IndexEntry where
  mode : Bytes
  hash : Bytes
deriving DecidableEq, Repr

/-- Serialized tree payload: one line "<mode> blob <hash> <path>\n" per
index entry, in index (path-sorted) order, as writeTree builds it. -/
def treePayload (idx : Assoc IndexEntry) : Bytes :=
  (idx.map (fun e =>
    e.2.mode ++ ascii " blob " ++ e.2.hash ++ 32 :: e.1 ++ [10])).flatten

/-- Serialized tree object with its "tree <byteLength>\x00" header. -/
def mkTreeObject (idx : Assoc IndexEntry) : Bytes :=
  let payload := treePayload idx
  ascii "tree " ++ decimalB payload.length ++ 0 :: payload

/-- The author/committer line written by the source: fixed identity plus a
timestamp (the chrono call is modelled as an explicit parameter). -/
def authorLine (ts : Nat) : Bytes :=
  ascii "Your Name <you@example.com> " ++ decimalB ts ++ ascii " +0000"

/-- Serialized commit content as writeCommit builds it: tree line, parent
line only when the parent digest is nonempty, author and committer lines,
blank line, message, trailing newline. -/
def commitPayload (treeHash parentHash : Bytes) (ts : Nat) (message : Bytes) : Bytes :=
  ascii "tree " ++ treeHash ++ [10] ++
    (if parentHash = [] then [] else ascii "parent " ++ parentHash ++ [10]) ++
    ascii "author " ++ authorLine ts ++ [10] ++
    ascii "committer " ++ authorLine ts ++ [10] ++
    [10] ++ message ++ [10]

/-- Serialized commit object with its "commit <byteLength>\x00" header. -/
def mkCommitObject (treeHash parentHash : Bytes) (ts : Nat) (message : Bytes) : Bytes :=
  let payload := commitPayload treeHash parentHash ts message
  ascii "commit " ++ decimalB payload.length ++ 0 :: payload

/-- Serialized merge-commit content as handleMerge builds it: tree line,
the current tip as first parent, the merged tip as second parent, author,
committer, blank line and the generated message. -/
def mergeCommitPayload (treeHash curCommit mergeCommit : Bytes) (ts : Nat)
    (mergeBranch curBranch : Bytes) : Bytes :=
  ascii "tree " ++ treeHash ++ [10] ++
    ascii "parent " ++ curCommit ++ [10] ++
    ascii "parent " ++ mergeCommit ++ [10] ++
    ascii "author " ++ authorLine ts ++ [10] ++
    ascii "committer " ++ authorLine ts ++ [10] ++
    [10] ++ ascii "Merge branch '" ++ mergeBranch ++ ascii "' into " ++ curBranch ++ [10]

/-- Serialized merge-commit object with header. -/
def mkMergeCommitObject (treeHash curCommit mergeCommit : Bytes) (ts : Nat)
    (mergeBranch curBranch : Bytes) : Bytes :=
  let payload := mergeCommitPayload treeHash curCommit mergeCommit ts mergeBranch curBranch
  ascii "commit " ++ decimalB payload.length ++ 0 :: payload

/-- Parsed commit fields (include/types.hpp struct Commit).  Note that the
struct has a single parent field, filled by every "parent" header line in
turn, so the last parent line wins. -/
structure Commit where
  tree : Bytes := []
  parent : Bytes := []
  author : Bytes := []
  committer : Bytes := []
  message : Bytes := []
deriving DecidableEq, Repr

/-- Split commit content into its header lines (up to the first empty line
or end of stream) and the remaining stream contents, mirroring the
getline loop of readCommit. -/
def headerSplit : Bytes → List Bytes × Bytes :=
  go []
where
  go (cur : Bytes) : Bytes → List Bytes × Bytes
    | [] => if cur = [] then ([], []) else ([cur.reverse], [])
    | b :: rest =>
      if b = 10 then
        if cur = [] then ([], rest)
        else
          let p := go [] rest
          (cur.reverse :: p.1, p.2)
      else go (b :: cur) rest

/-- The remainder of a line after its first token, with one leading space
trimmed, as the author/committer branches of readCommit compute it. -/
def restOfLine (line : Bytes) : Bytes :=
  let afterWs := line.dropWhile (fun b => isWsB b)
  let afterTok := afterWs.dropWhile (fun b => !isWsB b)
  match afterTok with
  | 32 :: r => r
  | r => r

/-- Apply one header line to the commit record, as the readCommit loop
does: the key is the first token; tree and parent read the second token
(leaving the field unchanged when the line has none). -/
def applyCommitLine (c : Commit) (line : Bytes) : Commit :=
  let ts := tokensB line
  let key := ts.getD 0 []
  if key = ascii "tree" then
    match ts.getD 1 [] with
    | [] => c
    | v => { c with tree := v }
  else if key = ascii "parent" then
    match ts.getD 1 [] with
    | [] => c
    | v => { c with parent := v }
  else if key = ascii "author" then { c with author := restOfLine line }
  else if key = ascii "committer" then { c with committer := restOfLine line }
  else c

/-- Parse a raw commit object (readCommit): empty or header-less objects
give the empty record; otherwise process header lines until the first
blank line, then take the remaining stream as the message with leading
newlines stripped. -/
def parseCommit (raw : Bytes) : Commit :=
  if raw = [] then {}
  else
    match splitNull raw with
    | none => {}
    | some p =>
      let hs := headerSplit p.2
      let c := hs.1.foldl applyCommitLine {}
      { c with message := hs.2.dropWhile (fun b => b = 10) }

/-- readCommit of src/objects.cpp: read the object and parse it. -/
def readCommit (σ : Store) (h : Bytes) : Commit :=
  parseCommit (readObject σ h)

/-- Parse a raw tree object into its (path, blobDigest) entries in line
order (readTree): per line, the tokens are mode, type, hash, path. -/
def parseTreeEntries (raw : Bytes) : List (Bytes × Bytes) :=
  if raw = [] then []
  else
    match splitNull raw with
    | none => []
    | some p =>
      (splitLines p.2).map (fun line =>
        let ts := tokensB line
        (ts.getD 3 [], ts.getD 2 []))

/-- readTreeToMap of src/utils.cpp: tree entries folded into a path-keyed
map. -/
def readTreeToMap (σ : Store) (treeHash : Bytes) : Assoc Bytes :=
  (parseTreeEntries (readObject σ treeHash)).foldl
    (fun m e => amInsert e.1 e.2 m) []

/-! ### Repository state

One record collects every piece of mutable state the commands touch: the
object store, the index file together with the process-wide index cache
of src/index.cpp (g_index_cache / g_cache_loaded), the working tree, the
first line of the HEAD file, and the refs/heads directory. -/

structure Repo where
  objects : Store
  indexFile : Option Bytes
  indexCache : Option (Assoc IndexEntry)
  work : Assoc Bytes
  headFile : Option Bytes
  refs : Assoc Bytes
deriving DecidableEq

/-- The empty repository right after init (no index file, nothing cached). -/
def emptyRepo : Repo :=
  ⟨[], none, none, [], some (ascii "ref: refs/heads/main"), []⟩

/-- Parse the persisted index file: one line per entry, tokens mode, hash,
path, folded into the path-keyed map (the getline loop of readIndex). -/
def parseIndexBytes (bs : Bytes) : Assoc IndexEntry :=
  (splitLines bs).foldl
    (fun m line =>
      let ts := tokensB line
      amInsert (ts.getD 2 []) ⟨ts.getD 0 [], ts.getD 1 []⟩ m) []

/-- Serialize the index map: "<mode> <hash> <path>\n" per entry in map
order, as writeIndex emits it. -/
def serializeIndex (m : Assoc IndexEntry) : Bytes :=
  (m.map (fun e => e.2.mode ++ 32 :: e.2.hash ++ 32 :: e.1 ++ [10])).flatten

/-- readIndex of src/index.cpp: return the cached map when the cache flag
is set; otherwise parse the file (an absent file yields the empty map)
and fill the cache. -/
def readIndexSt (r : Repo) : Assoc IndexEntry × Repo :=
  match r.indexCache with
  | some m => (m, r)
  | none =>
    match r.indexFile with
    | none => ([], { r with indexCache := some [] })
    | some bs => (parseIndexBytes bs, { r with indexCache := some (parseIndexBytes bs) })

/-- writeIndex of src/index.cpp: overwrite the file with the serialized
map and update the cache. -/
def writeIndexSt (m : Assoc IndexEntry) (r : Repo) : Repo :=
  { r with indexFile := some (serializeIndex m), indexCache := some m }

/-- clearIndex as defined at the end of src/index.cpp: truncate the index
file to empty.  The in-memory cache is left untouched.  (The file also
contains an earlier, conflicting clearIndex definition that does clear
the cache; the translation follows the final definition, which matches
the stale-cache defect recorded in the design document.) -/
def clearIndexSt (r : Repo) : Repo :=
  { r with indexFile := some [] }

/-! ### Reference resolution, src/repository.cpp -/

/-- getRefHash: first line of the ref file under .minigit/<ref>.  Only the
refs/heads namespace is materialized in the model; any other path reads
as an absent file (empty result). -/
def getRefHash (r : Repo) (ref : Bytes) : Bytes :=
  if ref = [] then []
  else if startsB (ascii "refs/heads/") ref then (amFind (ref.drop 11) r.refs).getD []
  else []

/-- getCurrentBranch: the branch name from a symbolic HEAD, empty when
HEAD is detached or missing. -/
def getCurrentBranch (r : Repo) : Bytes :=
  match r.headFile with
  | none => []
  | some h => if startsB (ascii "ref: refs/heads/") h then h.drop 16 else []

/-- isDetachedHead: HEAD exists and does not start with "ref: ". -/
def isDetachedHead (r : Repo) : Bool :=
  match r.headFile with
  | none => false
  | some h => !startsB (ascii "ref: ") h

/-- getHeadCommit: resolve a symbolic HEAD through getRefHash, otherwise
treat the HEAD contents as a literal digest. -/
def getHeadCommit (r : Repo) : Bytes :=
  match r.headFile with
  | none => []
  | some h => if startsB (ascii "ref: ") h then getRefHash r (h.drop 5) else h

/-! ### writeTree / writeCommit / handleCommit -/

/-- writeTree of src/objects.cpp: read the index (through the cache),
serialize it as a tree object and write the object. -/
def writeTreeSt (r : Repo) : Bytes × Repo :=
  let p := readIndexSt r
  let w := writeObject (mkTreeObject p.1) p.2.objects
  (w.1, { p.2 with objects := w.2 })

/-- writeCommit of src/objects.cpp: build the commit object and write it. -/
def writeCommitSt (treeHash parentHash : Bytes) (ts : Nat) (message : Bytes) (r : Repo) :
    Bytes × Repo :=
  let w := writeObject (mkCommitObject treeHash parentHash ts message) r.objects
  (w.1, { r with objects := w.2 })

/-- Observable outcome of handleCommit. -/
inductive CommitOut where
  | treeFailed
  | headMissing (digest : Bytes)
  | onBranch (branch : Bytes) (digest : Bytes)
  | detachedAdvance (digest : Bytes)
deriving DecidableEq, Repr

/-- handleCommit of src/commands.cpp: write the tree from the index, take
the previous HEAD commit as parent, write the commit object, then either
advance the branch ref named by a symbolic HEAD or, for a detached HEAD,
write the new digest directly into the HEAD file. -/
def handleCommit (ts : Nat) (message : Bytes) (r : Repo) : CommitOut × Repo :=
  let t := writeTreeSt r
  if t.1 = [] then (.treeFailed, t.2)
  else
    let parentHash := getHeadCommit t.2
    let c := writeCommitSt t.1 parentHash ts message t.2
    match c.2.headFile with
    | none => (.headMissing c.1, c.2)
    | some h =>
      if startsB (ascii "ref: ") h then
        let refPath := h.drop 5
        if startsB (ascii "refs/heads/") refPath then
          (.onBranch (refPath.drop 11) c.1,
            { c.2 with refs := amInsert (refPath.drop 11) c.1 c.2.refs })
        else (.onBranch refPath c.1, c.2)
      else (.detachedAdvance c.1, { c.2 with headFile := some c.1 })

/-! ### The merge engine, handleMerge of src/branch.cpp -/

/-- The mode string staged for every merged entry. -/
def m644 : Bytes := ascii "100644"

/-- The conflict-marker file contents built in the conflict branch of the
merge loop: current branch banner, current content (newline appended when
nonempty and not already newline-terminated), separator, merged content
(same rule), merged branch banner. -/
def conflictText (curBranch curContent mergeBranch mergeContent : Bytes) : Bytes :=
  ascii "<<<<<<< " ++ curBranch ++ [10] ++
    curContent ++
    (if curContent ≠ [] ∧ curContent.getLast? ≠ some 10 then [10] else []) ++
    ascii "=======" ++ [10] ++
    mergeContent ++
    (if mergeContent ≠ [] ∧ mergeContent.getLast? ≠ some 10 then [10] else []) ++
    ascii ">>>>>>> " ++ mergeBranch ++ [10]

/-- State threaded through the merge loop: the conflict list, the merged
index being built, and the repository (working files and object store). -/
structure MergeSt where
  conflicts : List Bytes
  idx : Assoc IndexEntry
  repo : Repo
deriving DecidableEq

/-- One iteration of the merge loop for a path of the union: carry equal
entries forward; on differing digests write the conflict-marker file,
hash it as a new blob and stage that blob; keep current-only entries
(restoring the working file when absent); adopt merge-only entries. -/
def mergeStep (curBranch mergeBranch : Bytes) (cf mf : Assoc Bytes) (st : MergeSt)
    (p : Bytes) : MergeSt :=
  match amFind p cf, amFind p mf with
  | some dc, some dm =>
    if dc = dm then { st with idx := amInsert p ⟨m644, dc⟩ st.idx }
    else
      let cc := readBlobContent st.repo.objects dc
      let cm := readBlobContent st.repo.objects dm
      let text := conflictText curBranch cc mergeBranch cm
      let w := hashObject text st.repo.objects
      { conflicts := st.conflicts ++ [p],
        idx := amInsert p ⟨m644, w.1⟩ st.idx,
        repo := { st.repo with work := amInsert p text st.repo.work, objects := w.2 } }
  | some dc, none =>
    let st1 : MergeSt := { st with idx := amInsert p ⟨m644, dc⟩ st.idx }
    if amFind p st.repo.work = none then
      { st1 with
        repo := { st1.repo with
          work := amInsert p (readBlobContent st.repo.objects dc) st1.repo.work } }
    else st1
  | none, some dm =>
    { st with
      idx := amInsert p ⟨m644, dm⟩ st.idx,
      repo := { st.repo with
        work := amInsert p (readBlobContent st.repo.objects dm) st.repo.work } }
  | none, none => st

/-- The merge loop over the sorted union of paths. -/
def mergeLoop (curBranch mergeBranch : Bytes) (cf mf : Assoc Bytes) (st : MergeSt)
    (ps : List Bytes) : MergeSt :=
  ps.foldl (mergeStep curBranch mergeBranch cf mf) st

/-- Does this path of the union conflict: present in both snapshots with
differing digests?  (Pure function of the two snapshots.) -/
def isConflictPath (cf mf : Assoc Bytes) (p : Bytes) : Bool :=
  match amFind p cf, amFind p mf with
  | some dc, some dm => decide (dc ≠ dm)
  | _, _ => false

/-- Observable outcome of handleMerge. -/
inductive MergeOut where
  | detachedErr
  | selfMerge
  | noCommits
  | noBranch
  | invalidCommits
  | conflicted (paths : List Bytes)
  | merged (digest : Bytes)
deriving DecidableEq, Repr

/-- The body of handleMerge once both tips are resolved: read both
commits and their flat snapshots, run the merge loop over the sorted
union of paths, persist the merged index; with no conflicts synthesize a
tree, write a two-parent merge commit (current tip first, merged tip
second), advance the current branch ref and report the digest; otherwise
report the conflicting paths and leave the refs untouched. -/
def mergeMain (ts : Nat) (curBranch mergeBranch curCommit mergeCommit : Bytes) (r : Repo) :
    MergeOut × Repo :=
  let current := readCommit r.objects curCommit
  let merge := readCommit r.objects mergeCommit
  if current.tree = [] ∨ merge.tree = [] then (.invalidCommits, r)
  else
    let cf := readTreeToMap r.objects current.tree
    let mf := readTreeToMap r.objects merge.tree
    let r1 := (readIndexSt r).2
    let allFiles := keySet (amKeys cf ++ amKeys mf)
    let st := mergeLoop curBranch mergeBranch cf mf ⟨[], [], r1⟩ allFiles
    let r2 := writeIndexSt st.idx st.repo
    if st.conflicts = [] then
      let t := writeTreeSt r2
      let cobj := mkMergeCommitObject t.1 curCommit mergeCommit ts mergeBranch curBranch
      let w := writeObject cobj t.2.objects
      (.merged w.1, { t.2 with objects := w.2, refs := amInsert curBranch w.1 t.2.refs })
    else (.conflicted st.conflicts, r2)

/-- handleMerge of src/branch.cpp: the four precondition checks in source
order (detached HEAD, self merge, no commits on the current branch,
missing target branch), then the merge body. -/
def handleMerge (ts : Nat) (mergeBranch : Bytes) (r : Repo) : MergeOut × Repo :=
  let curBranch := getCurrentBranch r
  if curBranch = [] then (.detachedErr, r)
  else if mergeBranch = curBranch then (.selfMerge, r)
  else
    let curCommit := getHeadCommit r
    if curCommit = [] then (.noCommits, r)
    else
      match amFind mergeBranch r.refs with
      | none => (.noBranch, r)
      | some mc => mergeMain ts curBranch mergeBranch curCommit mc r

/-! ### Integrity verification, src/repository.cpp -/

/-- The failure cases of verifyCommit, each naming the offending object
digest as the error output does. -/
inductive VerErr where
  | commitMissing (digest : Bytes)
  | commitMismatch (digest computed : Bytes)
  | commitNoTree (digest : Bytes)
  | treeMissing (digest : Bytes)
  | treeMismatch (digest computed : Bytes)
  | blobMissing (digest path : Bytes)
  | blobMismatch (digest path : Bytes)
deriving DecidableEq, Repr

/-- The blob loop of verifyCommit: first failing entry wins (entries in
map, i.e. path-sorted, order). -/
def checkBlobs (σ : Store) : List (Bytes × Bytes) → Option VerErr
  | [] => none
  | e :: rest =>
    let braw := readObject σ e.2
    if braw = [] then some (.blobMissing e.2 e.1)
    else if calculateHash braw ≠ e.2 then some (.blobMismatch e.2 e.1)
    else checkBlobs σ rest

/-- verifyCommit: recompute the commit digest from its stored bytes,
then the tree digest, then every blob digest of the tree, stopping at
the first mismatch; an empty digest passes vacuously as in the source. -/
def verifyCommit (σ : Store) (h : Bytes) : Option VerErr :=
  if h = [] then none
  else
    let raw := readObject σ h
    if raw = [] then some (.commitMissing h)
    else if calculateHash raw ≠ h then some (.commitMismatch h (calculateHash raw))
    else
      let c := parseCommit raw
      if c.tree = [] then some (.commitNoTree h)
      else
        let traw := readObject σ c.tree
        if traw = [] then some (.treeMissing c.tree)
        else if calculateHash traw ≠ c.tree then
          some (.treeMismatch c.tree (calculateHash traw))
        else checkBlobs σ (readTreeToMap σ c.tree)

/-- Result of the integrity walk: success with the two counters the
source reports, failure with the offending object, or exhausted fuel
(the C++ while loop has no bound; fuel makes the model total, and the
theorems assume enough fuel for the chain to reach its root). -/
inductive WalkRes where
  | ok (commitsVerified objectsVerified : Nat)
  | failed (e : VerErr)
  | fuelOut
deriving DecidableEq, Repr

/-- The while loop of verifyRepositoryIntegrity: verify the current
commit, add its tree entries plus one to the object counter, and move to
the parent field parsed from the commit. -/
def verifyChain (σ : Store) : Nat → Bytes → Nat → Nat → WalkRes
  | 0, _, _, _ => .fuelOut
  | fuel + 1, h, commits, objs =>
    if h = [] then .ok commits objs
    else
      match verifyCommit σ h with
      | some e => .failed e
      | none =>
        let c := parseCommit (readObject σ h)
        let files := readTreeToMap σ c.tree
        verifyChain σ fuel c.parent (commits + 1) (objs + files.length + 1)

/-- verifyRepositoryIntegrity: walk the chain starting at the HEAD
commit. -/
def verifyRepositoryIntegrity (r : Repo) (fuel : Nat) : WalkRes :=
  verifyChain r.objects fuel (getHeadCommit r) 0 0

/-- The chain of commit digests the walk visits: every commit followed by
the parent field its parse produces. -/
def parentChain (σ : Store) : Nat → Bytes → List Bytes
  | 0, _ => []
  | fuel + 1, h =>
    if h = [] then [] else h :: parentChain σ fuel (parseCommit (readObject σ h)).parent

/-- All "parent" header lines of a raw commit object, in order: the
parent digests as serialized, before the single parent field of the
parse collapses them. -/
def commitParentLines (raw : Bytes) : List Bytes :=
  match splitNull raw with
  | none => []
  | some p =>
    (headerSplit p.2).1.filterMap (fun line =>
      let ts := tokensB line
      if ts.getD 0 [] = ascii "parent" then some (ts.getD 1 []) else none)

/-! ### Merkle engine, src/merkle.cpp -/

/-- MerkleNode: path, file flag, cached digest, ordered children. -/
inductive MerkleNode where
  | mk (path : Bytes) (isFile : Bool) (hash : Bytes) (children : List MerkleNode)

/-- Path of a node. -/
def MerkleNode.path : MerkleNode → Bytes
  | .mk p _ _ _ => p

/-- File flag of a node. -/
def MerkleNode.isFile : MerkleNode → Bool
  | .mk _ f _ _ => f

/-- Cached digest of a node. -/
def MerkleNode.hash : MerkleNode → Bytes
  | .mk _ _ h _ => h

/-- Children of a node. -/
def MerkleNode.children : MerkleNode → List MerkleNode
  | .mk _ _ _ cs => cs

/-- Insert an element into a list sorted by the boolean preorder le. -/
def insertSorted {α : Type} (le : α → α → Bool) (x : α) : List α → List α
  | [] => [x]
  | y :: ys => if le x y then x :: y :: ys else y :: insertSorted le x ys

/-- Structural stable sort by the boolean preorder le, modelling
std::sort with the corresponding comparator. -/
def sortByB {α : Type} (le : α → α → Bool) : List α → List α
  | [] => []
  | x :: xs => insertSorted le x (sortByB le xs)

/-- calculateMerkleHash: a file keeps its content digest; a directory
hashes "merkle_dir " followed by "<path>:<digest>;" for every child with
a nonempty digest, children sorted by path. -/
def calculateMerkleHash (node : MerkleNode) : Bytes :=
  if node.isFile && node.hash ≠ [] then node.hash
  else
    let sorted := sortByB (fun a b => !bytesLt b.path a.path) node.children
    calculateHash (ascii "merkle_dir " ++
      (sorted.filterMap (fun c =>
        if c.hash = [] then none else some (c.path ++ 58 :: c.hash ++ [59]))).flatten)

/-- A working-directory entry for the model of buildFromDirectory. -/
inductive FSEnt where
  | file (name : Bytes) (content : Bytes)
  | dir (name : Bytes) (entries : List FSEnt)

/-- Name of a filesystem entry. -/
def FSEnt.name : FSEnt → Bytes
  | .file n _ => n
  | .dir n _ => n

/-- buildFromDirectory: full entry paths are dirPath/name; entries whose
path mentions .minigit are skipped; the rest are visited in sorted path
order, files becoming leaves carrying getFileHash of their content and
directories recursing; the node digest is computed from the children by
calculateMerkleHash.  The fuel argument bounds the recursion depth (the
C++ recursion is bounded by the directory tree itself). -/
def buildFromDirectory : Nat → Bytes → List FSEnt → MerkleNode
  | 0, dirPath, _ => .mk dirPath false (calculateMerkleHash (.mk dirPath false [] [])) []
  | fuel + 1, dirPath, entries =>
    let paths := entries.map (fun e => (dirPath ++ 47 :: FSEnt.name e, e))
    let kept := paths.filter (fun pe => !containsB (ascii ".minigit") pe.1)
    let sorted := sortByB (fun a b => !bytesLt b.1 a.1) kept
    let children := sorted.map (fun pe =>
      match pe.2 with
      | FSEnt.file _ content => MerkleNode.mk pe.1 true (getFileHash content) []
      | FSEnt.dir _ es => buildFromDirectory fuel pe.1 es)
    .mk dirPath false (calculateMerkleHash (.mk dirPath false [] children)) children

/-- buildFromWorkingDirectory: the walk starts at ".". -/
def buildFromWorkingDirectory (fuel : Nat) (entries : List FSEnt) : MerkleNode :=
  buildFromDirectory fuel (ascii ".") entries

/-- The sibling digests recorded at one ancestor level: every child other
than the one at the taken index, in child order, skipping empty digests. -/
def siblingHashes (cs : List MerkleNode) (i : Nat) : List Bytes :=
  (cs.enum.filterMap (fun je =>
    if je.1 ≠ i ∧ je.2.hash ≠ [] then some je.2.hash else none))

mutual
/-- getMerkleProofHelper: found when this node is the target file;
otherwise search the children of a directory, and on success append this
level's sibling digests after those contributed by deeper levels. -/
def getMerkleProofHelper (node : MerkleNode) (fp : Bytes) (proof : List Bytes) :
    Bool × List Bytes :=
  match node with
  | .mk path isFile _ children =>
    if isFile && path = fp then (true, proof)
    else if !isFile then
      match searchChildren children fp proof with
      | (some i, proof1) => (true, proof1 ++ siblingHashes children i)
      | (none, proof1) => (false, proof1)
    else (false, proof)

/-- Scan the children in order for the first whose subtree contains the
target, returning its index. -/
def searchChildren (cs : List MerkleNode) (fp : Bytes) (proof : List Bytes) :
    Option Nat × List Bytes :=
  match cs with
  | [] => (none, proof)
  | c :: rest =>
    match getMerkleProofHelper c fp proof with
    | (true, proof1) => (some 0, proof1)
    | (false, proof1) =>
      match searchChildren rest fp proof1 with
      | (some j, proof2) => (some (j + 1), proof2)
      | (none, proof2) => (none, proof2)
end

/-- getMerkleProof: run the helper from the root with an empty proof. -/
def getMerkleProof (tree : MerkleNode) (fp : Bytes) : List Bytes :=
  (getMerkleProofHelper tree fp []).2

/-- verifyMerkleProof: fold the file digest with each proof entry, always
concatenating the smaller digest first, hashing the pair, and comparing
the result with the expected root digest. -/
def verifyMerkleProof (fp fileHash : Bytes) (proof : List Bytes) (rootHash : Bytes) : Bool :=
  (proof.foldl (fun cur sib =>
    calculateHash (if bytesLt cur sib then cur ++ sib else sib ++ cur)) fileHash) = rootHash

/-! ### Supporting lemmas -/

theorem amSorted_foldl {α β : Type} (g : Assoc α → β → Assoc α)
    (hg : ∀ m x, amSorted m → amSorted (g m x)) (l : List β)
    {m0 : Assoc α} (h0 : amSorted m0) :
    amSorted (l.foldl g m0) := by
  induction l generalizing m0 with
  | nil => exact h0
  | cons hd tl ih => exact ih (hg m0 hd h0)

theorem amInsert_idem {α : Type} (k : Bytes) (v : α) (m : Assoc α) :
    amInsert k v (amInsert k v m) = amInsert k v m := by
  induction m with
  | nil => simp [amInsert, bytesLt_irrefl]
  | cons hd tl ih =>
    obtain ⟨k1, v1⟩ := hd
    by_cases hlt : bytesLt k k1 = true
    · simp [amInsert, hlt, bytesLt_irrefl]
    · by_cases heq : k = k1
      · subst heq; simp [amInsert, hlt, bytesLt_irrefl]
      · simp [amInsert, hlt, heq, ih]

theorem amSorted_head_lt {α : Type} {k1 : Bytes} {v1 : α} {tl : Assoc α}
    (h : amSorted ((k1, v1) :: tl)) : ∀ e ∈ tl, bytesLt k1 e.1 = true := by
  haveI : IsTrans (Bytes × α) (fun a b => bytesLt a.1 b.1 = true) :=
    ⟨fun _ _ _ hab hbc => bytesLt_trans hab hbc⟩
  have hp := List.chain'_iff_pairwise.mp h
  exact fun e he => (List.pairwise_cons.mp hp).1 e he

theorem amFilter_nil_of_not_mem {α : Type} {k : Bytes} {m : Assoc α}
    (h : k ∉ amKeys m) : m.filter (fun e => e.1 = k) = [] := by
  induction m with
  | nil => rfl
  | cons hd tl ih =>
    obtain ⟨k1, v1⟩ := hd
    have h1 : k1 ≠ k := by
      intro he; exact h (by simp [amKeys, he])
    have h2 : k ∉ amKeys tl := fun hm => h (by simp [amKeys] at hm ⊢; exact Or.inr hm)
    simp [List.filter_cons, h1, ih h2]

theorem amFilter_single {α : Type} {k : Bytes} {v : α} {m : Assoc α}
    (hm : amSorted m) (hf : amFind k m = some v) :
    m.filter (fun e => e.1 = k) = [(k, v)] := by
  induction m with
  | nil => simp [amFind] at hf
  | cons hd tl ih =>
    obtain ⟨k1, v1⟩ := hd
    have htl : amSorted tl := (List.chain'_cons'.mp hm).2
    by_cases heq : k = k1
    · subst heq
      have hf2 : v1 = v := by simpa [amFind] using hf
      subst hf2
      have hnot : k ∉ amKeys tl := by
        intro hmem
        simp only [amKeys, List.mem_map] at hmem
        obtain ⟨e, he, hkey⟩ := hmem
        exact bytesLt_ne (amSorted_head_lt hm e he) hkey.symm
      simp [List.filter_cons, amFilter_nil_of_not_mem hnot]
    · simp only [amFind, if_neg heq] at hf
      simp [List.filter_cons, Ne.symm heq, ih htl hf]

theorem splitNull_append {a : Bytes} (ha : ∀ b ∈ a, b ≠ 0) (c : Bytes) :
    splitNull (a ++ 0 :: c) = some (a, c) := by
  induction a with
  | nil => simp [splitNull]
  | cons x xs ih =>
    have hx : x ≠ 0 := ha x (by simp)
    have ih2 := ih (fun b hb => ha b (by simp [hb]))
    simp [splitNull, hx, ih2]

theorem serializeBlob_split (c : Bytes) :
    splitNull (serializeBlob c) = some (ascii "blob " ++ decimalB c.length, c) := by
  have ha : ∀ b ∈ ascii "blob " ++ decimalB c.length, b ≠ 0 := by
    have hb0 : ∀ b ∈ ascii "blob ", b ≠ 0 := by decide
    intro b hb
    rcases List.mem_append.mp hb with h | h
    · exact hb0 b h
    · have := mem_decimalB_bounds h; omega
  have : serializeBlob c = (ascii "blob " ++ decimalB c.length) ++ 0 :: c := by
    simp [serializeBlob]
  rw [this, splitNull_append ha]

theorem readBlobContent_hashObject (c : Bytes) (σ : Store) :
    readBlobContent (hashObject c σ).2 (hashObject c σ).1 = c := by
  have hfind :
      amFind (calculateHash (serializeBlob c))
        (amInsert (calculateHash (serializeBlob c)) (serializeBlob c) σ) =
        some (serializeBlob c) :=
    amFind_amInsert_self _ _ _
  have hne : serializeBlob c ≠ [] := by simp [serializeBlob, ascii]
  simp only [hashObject, writeObject, readBlobContent, readObject, hfind, Option.getD_some,
    if_neg hne, serializeBlob_split]

/-! ### C1: content addressing and idempotent dedup of writeObject -/

/-- C1: writeObject keys the stored bytes by the digest of the full
serialized content and returns that digest; writing the identical content
a second time returns the same digest and leaves the store extensionally
unchanged, so exactly one object sits under that digest. -/
theorem writeObject_content_addressed_dedup (c : Bytes) (σ : Store) (hσ : amSorted σ) :
    (writeObject c σ).1 = calculateHash c ∧
    amFind (calculateHash c) (writeObject c σ).2 = some c ∧
    (writeObject c (writeObject c σ).2).1 = (writeObject c σ).1 ∧
    (writeObject c (writeObject c σ).2).2 = (writeObject c σ).2 ∧
    (writeObject c σ).2.filter (fun e => e.1 = calculateHash c) = [(calculateHash c, c)] := by
  refine ⟨rfl, amFind_amInsert_self _ _ _, rfl, ?_, ?_⟩
  · simpa [writeObject] using amInsert_idem (calculateHash c) c σ
  · have hsorted : amSorted (writeObject c σ).2 := amSorted_amInsert _ _ hσ
    exact amFilter_single hsorted (amFind_amInsert_self _ _ _)

/-- Witness for C1 at a concrete content and the empty store. -/
theorem writeObject_content_addressed_dedup_witness :
    amSorted ([] : Store) ∧
      ((writeObject (ascii "blob 1" ++ 0 :: ascii "x") []).1 =
          calculateHash (ascii "blob 1" ++ 0 :: ascii "x") ∧
        amFind (calculateHash (ascii "blob 1" ++ 0 :: ascii "x"))
            (writeObject (ascii "blob 1" ++ 0 :: ascii "x") []).2 =
          some (ascii "blob 1" ++ 0 :: ascii "x") ∧
        (writeObject (ascii "blob 1" ++ 0 :: ascii "x")
              (writeObject (ascii "blob 1" ++ 0 :: ascii "x") []).2).1 =
          (writeObject (ascii "blob 1" ++ 0 :: ascii "x") []).1 ∧
        (writeObject (ascii "blob 1" ++ 0 :: ascii "x")
              (writeObject (ascii "blob 1" ++ 0 :: ascii "x") []).2).2 =
          (writeObject (ascii "blob 1" ++ 0 :: ascii "x") []).2 ∧
        (writeObject (ascii "blob 1" ++ 0 :: ascii "x") []).2.filter
            (fun e => e.1 = calculateHash (ascii "blob 1" ++ 0 :: ascii "x")) =
          [(calculateHash (ascii "blob 1" ++ 0 :: ascii "x"),
            ascii "blob 1" ++ 0 :: ascii "x")]) :=
  ⟨by decide, writeObject_content_addressed_dedup (ascii "blob 1" ++ 0 :: ascii "x") []
    (by decide)⟩

/-! ### C2: blob serialization, round trip, and the digest of "hello" -/

/-- C2: storing content as a blob serializes it as
"blob <byteLength>\x00<content>" and reading it back through the returned
digest restores the content verbatim; but the digest the repository
computes for the "hello" blob is not the standard SHA-1 digest of those
bytes, because SHA1::final of include/sha1.hpp assembles its final block
as 0x80, zero padding, message tail, length — placing the buffered
message tail after the padding instead of before it as the SHA-1
specification (and the comments of the same file) require. -/
theorem blob_roundtrip_and_nonstandard_digest :
    (∀ (c : Bytes) (σ : Store),
        readBlobContent (hashObject c σ).2 (hashObject c σ).1 = c) ∧
    serializeBlob (ascii "hello") = ascii "blob 5" ++ 0 :: ascii "hello" ∧
    calculateHash (serializeBlob (ascii "hello")) =
      ascii "a10b361dee675fc19ee2e74cc9745347e45c5fff" ∧
    standardSha1 (serializeBlob (ascii "hello")) =
      ascii "b6fc4c620b67d95f953a5c1c1230aaab5db5a1b0" ∧
    calculateHash (serializeBlob (ascii "hello")) ≠
      standardSha1 (serializeBlob (ascii "hello")) := by
  refine ⟨readBlobContent_hashObject, ?_, ?_, ?_, ?_⟩ <;> decide

/-! ### C3: insertion-order independence of the staged tree -/

/-- Staging one path-content pair as handleAdd does: hash the content as
a blob and upsert the path with mode 100644. -/
def stageEntry (idx : Assoc IndexEntry) (pc : Bytes × Bytes) : Assoc IndexEntry :=
  amInsert pc.1 ⟨m644, getFileHash pc.2⟩ idx

/-- Staging a list of path-content pairs into an initially empty index. -/
def stageAll (l : List (Bytes × Bytes)) : Assoc IndexEntry :=
  l.foldl stageEntry []

/-- C3: staging the same pairs in any order (unique paths) produces the
identical index — whose paths are unique and sorted — and therefore the
identical serialized tree object and tree digest. -/
theorem staging_order_independent (l1 l2 : List (Bytes × Bytes))
    (hperm : l1.Perm l2) (hnd : (l1.map Prod.fst).Nodup) :
    stageAll l1 = stageAll l2 ∧
    amSorted (stageAll l1) ∧ (amKeys (stageAll l1)).Nodup ∧
    mkTreeObject (stageAll l1) = mkTreeObject (stageAll l2) ∧
    calculateHash (mkTreeObject (stageAll l1)) = calculateHash (mkTreeObject (stageAll l2)) := by
  have hinj := List.inj_on_of_nodup_map hnd
  have hcomm : ∀ x ∈ l1, ∀ y ∈ l1, ∀ z,
      stageEntry (stageEntry z x) y = stageEntry (stageEntry z y) x := by
    intro x hx y hy z
    by_cases hxy : x.1 = y.1
    · have : x = y := hinj hx hy hxy
      subst this; rfl
    · exact amInsert_comm (Ne.symm hxy) _ _ z
  have heq : stageAll l1 = stageAll l2 := hperm.foldl_eq' hcomm []
  have hsorted : amSorted (stageAll l1) :=
    amSorted_foldl stageEntry (fun m x hm => amSorted_amInsert _ _ hm) l1 (by simp [amSorted])
  exact ⟨heq, hsorted, amSorted_keys_nodup hsorted, by rw [heq], by rw [heq]⟩

/-! ### C7: merge preconditions reject without mutating state -/

/-- C7: a merge attempted with a detached HEAD, with the current branch
as target, with no commits on the current branch, or with a nonexistent
target branch is rejected with the corresponding error, and the whole
repository state (objects, index file and cache, working tree, HEAD,
refs) is returned unchanged. -/
theorem merge_rejections_leave_state_unchanged (ts : Nat) (tgt : Bytes) (r : Repo)
    (h : getCurrentBranch r = [] ∨ tgt = getCurrentBranch r ∨
      getHeadCommit r = [] ∨ amFind tgt r.refs = none) :
    (handleMerge ts tgt r).2 = r ∧
      ((handleMerge ts tgt r).1 = .detachedErr ∨ (handleMerge ts tgt r).1 = .selfMerge ∨
        (handleMerge ts tgt r).1 = .noCommits ∨ (handleMerge ts tgt r).1 = .noBranch) := by
  by_cases h1 : getCurrentBranch r = []
  · simp [handleMerge, h1]
  · by_cases h2 : tgt = getCurrentBranch r
    · simp [handleMerge, h1, h2]
    · by_cases h3 : getHeadCommit r = []
      · simp [handleMerge, h1, h2, h3]
      · have h4 : amFind tgt r.refs = none := by tauto
        simp [handleMerge, h1, h2, h3, h4]

/-- Witness for C7: merging in a repository whose HEAD file holds a
literal digest (detached). -/
theorem merge_rejections_witness :
    (getCurrentBranch ⟨[], none, none, [], some (ascii "abc"), []⟩ = [] ∨
        ascii "dev" = getCurrentBranch ⟨[], none, none, [], some (ascii "abc"), []⟩ ∨
        getHeadCommit ⟨[], none, none, [], some (ascii "abc"), []⟩ = [] ∨
        amFind (ascii "dev") (Repo.refs ⟨[], none, none, [], some (ascii "abc"), []⟩) = none) ∧
      (handleMerge 0 (ascii "dev") ⟨[], none, none, [], some (ascii "abc"), []⟩).2 =
        ⟨[], none, none, [], some (ascii "abc"), []⟩ :=
  ⟨Or.inl (by decide),
    (merge_rejections_leave_state_unchanged 0 (ascii "dev")
      ⟨[], none, none, [], some (ascii "abc"), []⟩ (Or.inl (by decide))).1⟩

/-! ### C9: index reads after writes and the stale clearIndex cache -/

/-- A small nonempty index used to exhibit the stale-cache behavior. -/
def demoIndex : Assoc IndexEntry := [(ascii "a.txt", ⟨m644, ascii "aabb"⟩)]

/-- C9: a read right after writeIndex observes the written mapping (the
cache is refreshed), but a read right after clearIndex does not observe
the clear: clearIndex truncates the persisted file to empty while
leaving the in-memory cache loaded, so readIndex keeps returning the old
nonempty mapping even though a cache-free read of the persisted file
yields the empty mapping. -/
theorem clearIndex_read_returns_stale_cache :
    (∀ (m : Assoc IndexEntry) (r : Repo), (readIndexSt (writeIndexSt m r)).1 = m) ∧
    (readIndexSt (clearIndexSt (writeIndexSt demoIndex emptyRepo))).1 = demoIndex ∧
    demoIndex ≠ [] ∧
    (clearIndexSt (writeIndexSt demoIndex emptyRepo)).indexFile = some [] ∧
    (readIndexSt
        { clearIndexSt (writeIndexSt demoIndex emptyRepo) with indexCache := none }).1 = [] := by
  refine ⟨fun m r => rfl, rfl, by decide, rfl, rfl⟩

/-! ### Digest shape lemmas -/

theorem transform_shape (dg : List Nat) (block : Bytes) :
    ∃ w0 w1 w2 w3 w4, transform dg block = [w0, w1, w2, w3, w4] := by
  rcases h : mainRounds (schedule block) 0
      (dg.getD 0 0, dg.getD 1 0, dg.getD 2 0, dg.getD 3 0, dg.getD 4 0) with ⟨a, b, c, d, e⟩
  have ht : transform dg block =
      [(dg.getD 0 0 + a) % pow32, (dg.getD 1 0 + b) % pow32, (dg.getD 2 0 + c) % pow32,
        (dg.getD 3 0 + d) % pow32, (dg.getD 4 0 + e) % pow32] := by
    unfold transform
    rw [h]
  exact ⟨_, _, _, _, _, ht⟩

theorem hexDigest5_head (w0 w1 w2 w3 w4 : Nat) :
    hexDigest [w0, w1, w2, w3, w4] =
      hexChar ((w0 >>> 28) &&& 15) :: (hexDigest [w0, w1, w2, w3, w4]).tail := rfl

theorem mem_hexDigest {b : Nat} {l : List Nat} (hb : b ∈ hexDigest l) :
    ∃ n, n ≤ 15 ∧ b = hexChar n := by
  unfold hexDigest at hb
  rw [List.mem_flatten] at hb
  obtain ⟨ws, hws, hbws⟩ := hb
  rw [List.mem_map] at hws
  obtain ⟨w, _, hw⟩ := hws
  subst hw
  unfold hex8 at hbws
  rw [List.mem_map] at hbws
  obtain ⟨i, _, hi⟩ := hbws
  exact ⟨_, Nat.and_le_right, hi.symm⟩

theorem sha1FinalBuggy_shape (st : Sha1St) :
    ∃ ws, sha1FinalBuggy st = hexDigest ws := by
  unfold sha1FinalBuggy
  by_cases hb : st.buffer.length > 55 <;> simp [hb]

theorem calculateHash_shape (m : Bytes) : ∃ ws, calculateHash m = hexDigest ws :=
  sha1FinalBuggy_shape _

theorem mem_calculateHash {b : Nat} {m : Bytes} (hb : b ∈ calculateHash m) :
    ∃ n, n ≤ 15 ∧ b = hexChar n := by
  obtain ⟨ws, hws⟩ := calculateHash_shape m
  rw [hws] at hb
  exact mem_hexDigest hb

theorem sha1FinalBuggy_head (st : Sha1St) :
    ∃ n rest, n ≤ 15 ∧ sha1FinalBuggy st = hexChar n :: rest := by
  unfold sha1FinalBuggy
  by_cases hb : st.buffer.length > 55
  · obtain ⟨w0, w1, w2, w3, w4, hw⟩ :=
      transform_shape
        (transform st.dg (st.buffer ++ List.replicate (64 - st.buffer.length) 0))
        (128 :: (List.replicate 55 0 ++ [] ++
          lengthBytes (st.messageLen * 8 + st.buffer.length * 8)))
    simp only [hb, if_true, List.length_nil, Nat.sub_zero, if_pos hb]
    rw [hw]
    exact ⟨_, _, Nat.and_le_right, hexDigest5_head w0 w1 w2 w3 w4⟩
  · obtain ⟨w0, w1, w2, w3, w4, hw⟩ :=
      transform_shape st.dg
        (128 :: (List.replicate (55 - st.buffer.length) 0 ++ st.buffer ++
          lengthBytes (st.messageLen * 8 + st.buffer.length * 8)))
    simp only [hb, if_false, if_neg hb]
    rw [hw]
    exact ⟨_, _, Nat.and_le_right, hexDigest5_head w0 w1 w2 w3 w4⟩

theorem hexChar_le (n : Nat) (h : n ≤ 15) : 48 ≤ hexChar n ∧ hexChar n ≤ 102 := by
  unfold hexChar; split <;> omega

theorem calculateHash_ne_nil (m : Bytes) : calculateHash m ≠ [] := by
  obtain ⟨n, rest, _, hh⟩ := sha1FinalBuggy_head (sha1Update sha1Init m)
  unfold calculateHash
  rw [hh]
  simp

theorem calculateHash_not_ref (m : Bytes) :
    startsB (ascii "ref: ") (calculateHash m) = false := by
  obtain ⟨n, rest, hn, hh⟩ := sha1FinalBuggy_head (sha1Update sha1Init m)
  have h102 := hexChar_le n hn
  have hr : ascii "ref: " = 114 :: [101, 102, 58, 32] := rfl
  unfold calculateHash
  rw [hh, hr]
  simp only [startsB]
  have : (114 = hexChar n) = False := by
    simp only [eq_iff_iff, iff_false]
    omega
  simp [this]

/-! ### Parsing lemmas for serialized commits -/

/-- A well-formed token: nonempty and free of whitespace and null bytes
(true of every digest the repository produces). -/
def isTokenB (bs : Bytes) : Prop := bs ≠ [] ∧ ∀ x ∈ bs, isWsB x = false ∧ x ≠ 0

instance (bs : Bytes) : Decidable (isTokenB bs) := by
  unfold isTokenB; infer_instance

theorem isTokenB_no_newline {bs : Bytes} (h : isTokenB bs) : ∀ b ∈ bs, b ≠ 10 := by
  intro b hb he
  subst he
  exact absurd (h.2 10 hb).1 (by simp [isWsB])

theorem isTokenB_calculateHash (m : Bytes) : isTokenB (calculateHash m) := by
  refine ⟨calculateHash_ne_nil m, fun x hx => ?_⟩
  obtain ⟨n, hn, hx2⟩ := mem_calculateHash hx
  subst hx2
  have := hexChar_le n hn
  constructor
  · simp [isWsB]; omega
  · omega

theorem tokensGo_append_nonws (cur : Bytes) (a : Bytes) (ha : ∀ x ∈ a, isWsB x = false)
    (rest : Bytes) : tokensGo cur (a ++ rest) = tokensGo (a.reverse ++ cur) rest := by
  induction a generalizing cur with
  | nil => simp
  | cons b bs ih =>
    have hb : isWsB b = false := ha b (by simp)
    simp only [List.cons_append, tokensGo, hb, Bool.false_eq_true, if_false, List.append_eq]
    rw [ih (b :: cur) (fun x hx => ha x (by simp [hx]))]
    simp [List.append_assoc]

theorem tokensB_single {a : Bytes} (ha : ∀ x ∈ a, isWsB x = false) (hane : a ≠ []) :
    tokensB a = [a] := by
  unfold tokensB
  rw [show a = a ++ [] by simp, tokensGo_append_nonws [] a ha []]
  simp [tokensGo, hane]

theorem tokensB_head {a : Bytes} (ha : ∀ x ∈ a, isWsB x = false) (hane : a ≠ [])
    (b : Bytes) : tokensB (a ++ 32 :: b) = a :: tokensB b := by
  unfold tokensB
  rw [tokensGo_append_nonws [] a ha]
  simp [tokensGo, show isWsB 32 = true from rfl, hane]

theorem headerSplitGo_consume (cur : Bytes) (a : Bytes) (ha : ∀ b ∈ a, b ≠ 10)
    (rest : Bytes) : headerSplit.go cur (a ++ rest) = headerSplit.go (a.reverse ++ cur) rest := by
  induction a generalizing cur with
  | nil => simp
  | cons b bs ih =>
    have hb : b ≠ 10 := ha b (by simp)
    simp only [List.cons_append, headerSplit.go, hb, if_false, if_neg hb, List.append_eq]
    rw [ih (b :: cur) (fun x hx => ha x (by simp [hx]))]
    simp [List.append_assoc]

theorem headerSplitGo_newline (cur : Bytes) (hcur : cur ≠ []) (rest : Bytes) :
    headerSplit.go cur (10 :: rest) =
      (cur.reverse :: (headerSplit.go [] rest).1, (headerSplit.go [] rest).2) := by
  simp [headerSplit.go, hcur]

theorem headerSplitGo_blank (rest : Bytes) : headerSplit.go [] (10 :: rest) = ([], rest) := by
  simp [headerSplit.go]

/-- Consume a full "<line>\n" at the start of the stream. -/
theorem headerSplit_line (a : Bytes) (ha : ∀ b ∈ a, b ≠ 10) (hane : a ≠ []) (rest : Bytes) :
    headerSplit.go [] (a ++ 10 :: rest) =
      (a :: (headerSplit.go [] rest).1, (headerSplit.go [] rest).2) := by
  rw [headerSplitGo_consume [] a ha (10 :: rest),
    headerSplitGo_newline _ (by simpa using hane) rest]
  simp

theorem applyCommitLine_tree (c : Commit) {t : Bytes} (ht : isTokenB t) :
    applyCommitLine c (ascii "tree " ++ t) = { c with tree := t } := by
  have h1 : ascii "tree " ++ t = ascii "tree" ++ 32 :: t := rfl
  obtain ⟨x, xs, hx⟩ := List.exists_cons_of_ne_nil ht.1
  unfold applyCommitLine
  rw [h1, @tokensB_head (ascii "tree") (by decide) (by decide) t,
    tokensB_single (fun x hx => (ht.2 x hx).1) ht.1]
  subst hx
  simp

theorem applyCommitLine_parent (c : Commit) {p : Bytes} (hp : isTokenB p) :
    applyCommitLine c (ascii "parent " ++ p) = { c with parent := p } := by
  have h1 : ascii "parent " ++ p = ascii "parent" ++ 32 :: p := rfl
  obtain ⟨x, xs, hx⟩ := List.exists_cons_of_ne_nil hp.1
  unfold applyCommitLine
  rw [h1, @tokensB_head (ascii "parent") (by decide) (by decide) p,
    tokensB_single (fun x hx => (hp.2 x hx).1) hp.1]
  subst hx
  simp [show ascii "parent" ≠ ascii "tree" by decide]

theorem applyCommitLine_author (c : Commit) (a : Bytes) :
    applyCommitLine c (ascii "author " ++ a) =
      { c with author := restOfLine (ascii "author " ++ a) } := by
  have h1 : ascii "author " ++ a = ascii "author" ++ 32 :: a := rfl
  unfold applyCommitLine
  rw [h1, @tokensB_head (ascii "author") (by decide) (by decide) a]
  simp [show ascii "author" ≠ ascii "tree" by decide,
    show ascii "author" ≠ ascii "parent" by decide]

theorem applyCommitLine_committer (c : Commit) (a : Bytes) :
    applyCommitLine c (ascii "committer " ++ a) =
      { c with committer := restOfLine (ascii "committer " ++ a) } := by
  have h1 : ascii "committer " ++ a = ascii "committer" ++ 32 :: a := rfl
  unfold applyCommitLine
  rw [h1, @tokensB_head (ascii "committer") (by decide) (by decide) a]
  simp [show ascii "committer" ≠ ascii "tree" by decide,
    show ascii "committer" ≠ ascii "parent" by decide,
    show ascii "committer" ≠ ascii "author" by decide]

theorem splitNull_object {tag : Bytes} (htag : ∀ b ∈ tag, b ≠ 0) (n : Nat) (payload : Bytes) :
    splitNull (tag ++ decimalB n ++ 0 :: payload) = some (tag ++ decimalB n, payload) := by
  have hs : tag ++ decimalB n ++ 0 :: payload = (tag ++ decimalB n) ++ 0 :: payload := by
    simp
  rw [hs]
  refine splitNull_append ?_ payload
  intro b hb
  rcases List.mem_append.mp hb with h | h
  · exact htag b h
  · have := mem_decimalB_bounds h; omega

theorem authorLine_no_newline (ts : Nat) : ∀ b ∈ authorLine ts, b ≠ 10 := by
  have h1 : ∀ b ∈ ascii "Your Name <you@example.com> ", b ≠ 10 := by decide
  have h2 : ∀ b ∈ ascii " +0000", b ≠ 10 := by decide
  intro b hb
  unfold authorLine at hb
  rcases List.mem_append.mp hb with h | h
  · rcases List.mem_append.mp h with h3 | h3
    · exact h1 b h3
    · have := mem_decimalB_bounds h3; omega
  · exact h2 b h

theorem append_ne_nil_left {a : Bytes} (ha : a ≠ []) (b : Bytes) : a ++ b ≠ [] := by
  intro hc
  exact ha (List.append_eq_nil.mp hc).1

theorem no_nl_append {a b : Bytes} (ha : ∀ x ∈ a, x ≠ 10) (hb : ∀ x ∈ b, x ≠ 10) :
    ∀ x ∈ a ++ b, x ≠ 10 := by
  intro x hx
  rcases List.mem_append.mp hx with h | h
  · exact ha x h
  · exact hb x h

theorem headerSplit_commitPayload (t p : Bytes) (ts : Nat) (msg : Bytes)
    (ht : isTokenB t) (hp : isTokenB p) :
    headerSplit (commitPayload t p ts msg) =
      ([ascii "tree " ++ t, ascii "parent " ++ p,
        ascii "author " ++ authorLine ts, ascii "committer " ++ authorLine ts],
        msg ++ [10]) := by
  have htree : ∀ b ∈ ascii "tree " ++ t, b ≠ 10 :=
    no_nl_append (by decide) (isTokenB_no_newline ht)
  have hpar : ∀ b ∈ ascii "parent " ++ p, b ≠ 10 :=
    no_nl_append (by decide) (isTokenB_no_newline hp)
  have hauth : ∀ b ∈ ascii "author " ++ authorLine ts, b ≠ 10 :=
    no_nl_append (by decide) (authorLine_no_newline ts)
  have hcom : ∀ b ∈ ascii "committer " ++ authorLine ts, b ≠ 10 :=
    no_nl_append (by decide) (authorLine_no_newline ts)
  have hshape : commitPayload t p ts msg =
      (ascii "tree " ++ t) ++ 10 ::
        ((ascii "parent " ++ p) ++ 10 ::
          ((ascii "author " ++ authorLine ts) ++ 10 ::
            ((ascii "committer " ++ authorLine ts) ++ 10 :: (10 :: (msg ++ [10]))))) := by
    unfold commitPayload
    rw [if_neg hp.1]
    simp [List.append_assoc]
  show headerSplit.go [] (commitPayload t p ts msg) = _
  rw [hshape,
    headerSplit_line _ htree (append_ne_nil_left (by decide) _) _,
    headerSplit_line _ hpar (append_ne_nil_left (by decide) _) _,
    headerSplit_line _ hauth (append_ne_nil_left (by decide) _) _,
    headerSplit_line _ hcom (append_ne_nil_left (by decide) _) _,
    headerSplitGo_blank]

/-- readCommit on a commit object written by writeCommit recovers the
tree and parent digests from the serialized header lines. -/
theorem parseCommit_mkCommitObject (t p : Bytes) (ts : Nat) (msg : Bytes)
    (ht : isTokenB t) (hp : isTokenB p) :
    (parseCommit (mkCommitObject t p ts msg)).tree = t ∧
    (parseCommit (mkCommitObject t p ts msg)).parent = p := by
  have hsplit :
      splitNull (mkCommitObject t p ts msg) =
        some (ascii "commit " ++ decimalB (commitPayload t p ts msg).length,
          commitPayload t p ts msg) :=
    splitNull_object (by decide) _ _
  have hne : mkCommitObject t p ts msg ≠ [] := by simp [mkCommitObject, ascii]
  unfold parseCommit
  rw [if_neg hne, hsplit]
  dsimp only
  rw [show (headerSplit (commitPayload t p ts msg)) =
    ([ascii "tree " ++ t, ascii "parent " ++ p,
      ascii "author " ++ authorLine ts, ascii "committer " ++ authorLine ts],
      msg ++ [10]) from headerSplit_commitPayload t p ts msg ht hp]
  simp only [List.foldl_cons, List.foldl_nil]
  rw [applyCommitLine_tree _ ht, applyCommitLine_parent _ hp,
    applyCommitLine_author, applyCommitLine_committer]
  exact ⟨rfl, rfl⟩

theorem headerSplit_mergeCommitPayload (t p1 p2 : Bytes) (ts : Nat)
    (mergeBranch curBranch : Bytes) (ht : isTokenB t) (hp1 : isTokenB p1) (hp2 : isTokenB p2) :
    headerSplit (mergeCommitPayload t p1 p2 ts mergeBranch curBranch) =
      ([ascii "tree " ++ t, ascii "parent " ++ p1, ascii "parent " ++ p2,
        ascii "author " ++ authorLine ts, ascii "committer " ++ authorLine ts],
        ascii "Merge branch '" ++ mergeBranch ++ ascii "' into " ++ curBranch ++ [10]) := by
  have htree : ∀ b ∈ ascii "tree " ++ t, b ≠ 10 :=
    no_nl_append (by decide) (isTokenB_no_newline ht)
  have hpar1 : ∀ b ∈ ascii "parent " ++ p1, b ≠ 10 :=
    no_nl_append (by decide) (isTokenB_no_newline hp1)
  have hpar2 : ∀ b ∈ ascii "parent " ++ p2, b ≠ 10 :=
    no_nl_append (by decide) (isTokenB_no_newline hp2)
  have hauth : ∀ b ∈ ascii "author " ++ authorLine ts, b ≠ 10 :=
    no_nl_append (by decide) (authorLine_no_newline ts)
  have hcom : ∀ b ∈ ascii "committer " ++ authorLine ts, b ≠ 10 :=
    no_nl_append (by decide) (authorLine_no_newline ts)
  have hshape : mergeCommitPayload t p1 p2 ts mergeBranch curBranch =
      (ascii "tree " ++ t) ++ 10 ::
        ((ascii "parent " ++ p1) ++ 10 ::
          ((ascii "parent " ++ p2) ++ 10 ::
            ((ascii "author " ++ authorLine ts) ++ 10 ::
              ((ascii "committer " ++ authorLine ts) ++ 10 ::
                (10 :: (ascii "Merge branch '" ++ mergeBranch ++ ascii "' into " ++
                  curBranch ++ [10])))))) := by
    unfold mergeCommitPayload
    simp [List.append_assoc]
  show headerSplit.go [] (mergeCommitPayload t p1 p2 ts mergeBranch curBranch) = _
  rw [hshape,
    headerSplit_line _ htree (append_ne_nil_left (by decide) _) _,
    headerSplit_line _ hpar1 (append_ne_nil_left (by decide) _) _,
    headerSplit_line _ hpar2 (append_ne_nil_left (by decide) _) _,
    headerSplit_line _ hauth (append_ne_nil_left (by decide) _) _,
    headerSplit_line _ hcom (append_ne_nil_left (by decide) _) _,
    headerSplitGo_blank]

/-- readCommit on a merge commit written by handleMerge: the tree field
is recovered, and the single parent field holds the digest of the LAST
"parent" header line — the second parent — because each parent line
overwrites the previous value in the parse loop. -/
theorem parseCommit_mkMergeCommitObject (t p1 p2 : Bytes) (ts : Nat)
    (mergeBranch curBranch : Bytes) (ht : isTokenB t) (hp1 : isTokenB p1) (hp2 : isTokenB p2) :
    (parseCommit (mkMergeCommitObject t p1 p2 ts mergeBranch curBranch)).tree = t ∧
    (parseCommit (mkMergeCommitObject t p1 p2 ts mergeBranch curBranch)).parent = p2 := by
  have hsplit :
      splitNull (mkMergeCommitObject t p1 p2 ts mergeBranch curBranch) =
        some (ascii "commit " ++
          decimalB (mergeCommitPayload t p1 p2 ts mergeBranch curBranch).length,
          mergeCommitPayload t p1 p2 ts mergeBranch curBranch) :=
    splitNull_object (by decide) _ _
  have hne : mkMergeCommitObject t p1 p2 ts mergeBranch curBranch ≠ [] := by
    simp [mkMergeCommitObject, ascii]
  unfold parseCommit
  rw [if_neg hne, hsplit]
  dsimp only
  rw [headerSplit_mergeCommitPayload t p1 p2 ts mergeBranch curBranch ht hp1 hp2]
  simp only [List.foldl_cons, List.foldl_nil]
  rw [applyCommitLine_tree _ ht, applyCommitLine_parent _ hp1, applyCommitLine_parent _ hp2,
    applyCommitLine_author, applyCommitLine_committer]
  exact ⟨rfl, rfl⟩

/-! ### Frame lemmas for the state-passing operations -/

theorem readIndexSt_frame (r : Repo) :
    (readIndexSt r).2.headFile = r.headFile ∧ (readIndexSt r).2.refs = r.refs ∧
    (readIndexSt r).2.work = r.work ∧ (readIndexSt r).2.objects = r.objects := by
  rcases hc : r.indexCache with _ | m
  · rcases hf : r.indexFile with _ | bs <;> simp [readIndexSt, hc, hf]
  · simp [readIndexSt, hc]

theorem writeTreeSt_frame (r : Repo) :
    (writeTreeSt r).2.headFile = r.headFile ∧ (writeTreeSt r).2.refs = r.refs ∧
    (writeTreeSt r).2.work = r.work := by
  obtain ⟨h1, h2, h3, _⟩ := readIndexSt_frame r
  unfold writeTreeSt
  simp [h1, h2, h3, writeObject]

theorem writeTreeSt_digest (r : Repo) :
    (writeTreeSt r).1 = calculateHash (mkTreeObject (readIndexSt r).1) := rfl

/-! ### C10: commit with a detached HEAD -/

/-- C10: when HEAD holds a literal digest, handleCommit writes the new
commit object — whose parent is the previous detached digest — moves the
HEAD file itself to the new digest, and leaves every branch ref file
untouched, so HEAD remains detached at the new commit. -/
theorem commit_detached_advances_head_only (ts : Nat) (message : Bytes) (r : Repo) (h : Bytes)
    (hhead : r.headFile = some h) (hdet : startsB (ascii "ref: ") h = false)
    (htok : isTokenB h) :
    (handleCommit ts message r).1 =
      .detachedAdvance (calculateHash (mkCommitObject (writeTreeSt r).1 h ts message)) ∧
    (handleCommit ts message r).2.refs = r.refs ∧
    (handleCommit ts message r).2.headFile =
      some (calculateHash (mkCommitObject (writeTreeSt r).1 h ts message)) ∧
    amFind (calculateHash (mkCommitObject (writeTreeSt r).1 h ts message))
        (handleCommit ts message r).2.objects =
      some (mkCommitObject (writeTreeSt r).1 h ts message) ∧
    (parseCommit (mkCommitObject (writeTreeSt r).1 h ts message)).parent = h ∧
    isDetachedHead (handleCommit ts message r).2 = true := by
  have hdig := writeTreeSt_digest r
  have hfr := writeTreeSt_frame r
  rcases hw : writeTreeSt r with ⟨th, wr⟩
  rw [hw] at hdig hfr
  dsimp only at hdig hfr
  obtain ⟨hf1, hf2, hf3⟩ := hfr
  have hth : ¬th = [] := by rw [hdig]; exact calculateHash_ne_nil _
  have htht : isTokenB th := by rw [hdig]; exact isTokenB_calculateHash _
  have hhc : getHeadCommit wr = h := by
    unfold getHeadCommit
    rw [hf1, hhead]
    simp [hdet]
  rw [show handleCommit ts message r =
      (.detachedAdvance (calculateHash (mkCommitObject th h ts message)),
        { wr with
            objects := amInsert (calculateHash (mkCommitObject th h ts message))
              (mkCommitObject th h ts message) wr.objects,
            headFile := some (calculateHash (mkCommitObject th h ts message)) })
    from ?_]
  · dsimp only
    refine ⟨rfl, by simpa using hf2, rfl, amFind_amInsert_self _ _ _, ?_, ?_⟩
    · exact (parseCommit_mkCommitObject th h ts message htht htok).2
    · simp [isDetachedHead, calculateHash_not_ref]
  · unfold handleCommit
    rw [hw]
    dsimp only
    rw [if_neg hth, hhc]
    unfold writeCommitSt writeObject
    dsimp only
    rw [hf1, hhead]
    simp [hdet]

/-- Witness for C10: a commit in a small detached-HEAD repository. -/
theorem commit_detached_advances_head_only_witness :
    ((Repo.headFile ⟨[], none, none, [], some (ascii "aa"), []⟩ = some (ascii "aa")) ∧
      startsB (ascii "ref: ") (ascii "aa") = false ∧ isTokenB (ascii "aa")) ∧
      (handleCommit 5 (ascii "m") ⟨[], none, none, [], some (ascii "aa"), []⟩).2.refs =
        Repo.refs ⟨[], none, none, [], some (ascii "aa"), []⟩ :=
  ⟨⟨rfl, by decide, by decide⟩,
    (commit_detached_advances_head_only 5 (ascii "m")
      ⟨[], none, none, [], some (ascii "aa"), []⟩ (ascii "aa") rfl (by decide)
      (by decide)).2.1⟩

/-- Witness for C3: two pairs staged in both orders. -/
theorem staging_order_independent_witness :
    ([(ascii "b.txt", ascii "B"), (ascii "a.txt", ascii "A")].Perm
        [(ascii "a.txt", ascii "A"), (ascii "b.txt", ascii "B")] ∧
      ([(ascii "b.txt", ascii "B"), (ascii "a.txt", ascii "A")].map Prod.fst).Nodup) ∧
      stageAll [(ascii "b.txt", ascii "B"), (ascii "a.txt", ascii "A")] =
        stageAll [(ascii "a.txt", ascii "A"), (ascii "b.txt", ascii "B")] :=
  ⟨⟨by decide, by decide⟩,
    (staging_order_independent _ _ (by decide) (by decide)).1⟩

/-! ### Merge-loop lemmas -/

/-- The conflict list the loop accumulates is exactly the conflicting
paths of the processed sequence, in order. -/
theorem mergeLoop_conflicts (cur mer : Bytes) (cf mf : Assoc Bytes) (st : MergeSt)
    (ps : List Bytes) :
    (mergeLoop cur mer cf mf st ps).conflicts =
      st.conflicts ++ ps.filter (isConflictPath cf mf) := by
  induction ps generalizing st with
  | nil => simp [mergeLoop]
  | cons p ps ih =>
    have hstep : (mergeLoop cur mer cf mf st (p :: ps)) =
        mergeLoop cur mer cf mf (mergeStep cur mer cf mf st p) ps := rfl
    rw [hstep, ih]
    rcases hc : amFind p cf with _ | dc <;> rcases hm : amFind p mf with _ | dm
    · simp [mergeStep, hc, hm, isConflictPath, List.filter_cons]
    · simp [mergeStep, hc, hm, isConflictPath, List.filter_cons]
    · by_cases hw : amFind p st.repo.work = none <;>
        simp [mergeStep, hc, hm, hw, isConflictPath, List.filter_cons]
    · by_cases hd : dc = dm
      · simp [mergeStep, hc, hm, hd, isConflictPath, List.filter_cons]
      · simp [mergeStep, hc, hm, hd, isConflictPath, List.filter_cons]

/-- One merge step never touches the refs, HEAD, or index file of the
repository inside the state. -/
theorem mergeStep_repo_frame (cur mer : Bytes) (cf mf : Assoc Bytes) (st : MergeSt)
    (p : Bytes) :
    (mergeStep cur mer cf mf st p).repo.refs = st.repo.refs ∧
    (mergeStep cur mer cf mf st p).repo.headFile = st.repo.headFile ∧
    (mergeStep cur mer cf mf st p).repo.indexFile = st.repo.indexFile ∧
    (mergeStep cur mer cf mf st p).repo.indexCache = st.repo.indexCache := by
  rcases hc : amFind p cf with _ | dc <;> rcases hm : amFind p mf with _ | dm
  · simp [mergeStep, hc, hm]
  · simp [mergeStep, hc, hm]
  · by_cases hw : amFind p st.repo.work = none <;> simp [mergeStep, hc, hm, hw]
  · by_cases hd : dc = dm <;> simp [mergeStep, hc, hm, hd]

theorem mergeLoop_repo_frame (cur mer : Bytes) (cf mf : Assoc Bytes) (st : MergeSt)
    (ps : List Bytes) :
    (mergeLoop cur mer cf mf st ps).repo.refs = st.repo.refs ∧
    (mergeLoop cur mer cf mf st ps).repo.headFile = st.repo.headFile ∧
    (mergeLoop cur mer cf mf st ps).repo.indexFile = st.repo.indexFile ∧
    (mergeLoop cur mer cf mf st ps).repo.indexCache = st.repo.indexCache := by
  induction ps generalizing st with
  | nil => exact ⟨rfl, rfl, rfl, rfl⟩
  | cons p ps ih =>
    have hstep : (mergeLoop cur mer cf mf st (p :: ps)) =
        mergeLoop cur mer cf mf (mergeStep cur mer cf mf st p) ps := rfl
    rw [hstep]
    obtain ⟨i1, i2, i3, i4⟩ := ih (mergeStep cur mer cf mf st p)
    obtain ⟨s1, s2, s3, s4⟩ := mergeStep_repo_frame cur mer cf mf st p
    exact ⟨i1.trans s1, i2.trans s2, i3.trans s3, i4.trans s4⟩

/-- A step for path q leaves the working-tree entry and the staged index
entry of any other path p unchanged. -/
theorem mergeStep_preserves_other (cur mer : Bytes) (cf mf : Assoc Bytes) (st : MergeSt)
    {p q : Bytes} (hne : p ≠ q) :
    amFind p (mergeStep cur mer cf mf st q).repo.work = amFind p st.repo.work ∧
    amFind p (mergeStep cur mer cf mf st q).idx = amFind p st.idx := by
  rcases hc : amFind q cf with _ | dc <;> rcases hm : amFind q mf with _ | dm
  · simp [mergeStep, hc, hm]
  · simp [mergeStep, hc, hm, amFind_amInsert_ne hne]
  · by_cases hw : amFind q st.repo.work = none <;>
      simp [mergeStep, hc, hm, hw, amFind_amInsert_ne hne]
  · by_cases hd : dc = dm <;> simp [mergeStep, hc, hm, hd, amFind_amInsert_ne hne]

theorem mergeLoop_preserves_other (cur mer : Bytes) (cf mf : Assoc Bytes) (st : MergeSt)
    (ps : List Bytes) {p : Bytes} (hps : p ∉ ps) :
    amFind p (mergeLoop cur mer cf mf st ps).repo.work = amFind p st.repo.work ∧
    amFind p (mergeLoop cur mer cf mf st ps).idx = amFind p st.idx := by
  induction ps generalizing st with
  | nil => exact ⟨rfl, rfl⟩
  | cons q ps ih =>
    have hstep : (mergeLoop cur mer cf mf st (q :: ps)) =
        mergeLoop cur mer cf mf (mergeStep cur mer cf mf st q) ps := rfl
    rw [hstep]
    have hpq : p ≠ q := fun he => hps (by simp [he])
    obtain ⟨i1, i2⟩ := ih (mergeStep cur mer cf mf st q) (fun hm => hps (by simp [hm]))
    obtain ⟨s1, s2⟩ := mergeStep_preserves_other cur mer cf mf st hpq
    exact ⟨i1.trans s1, i2.trans s2⟩

/-- The effect of the conflict branch at its own path. -/
theorem mergeStep_conflict_eq (cur mer : Bytes) (cf mf : Assoc Bytes) (st : MergeSt)
    {p dc dm : Bytes} (hc : amFind p cf = some dc) (hm : amFind p mf = some dm)
    (hne : dc ≠ dm) :
    mergeStep cur mer cf mf st p =
      { conflicts := st.conflicts ++ [p],
        idx := amInsert p
          ⟨m644, calculateHash (serializeBlob (conflictText cur
            (readBlobContent st.repo.objects dc) mer (readBlobContent st.repo.objects dm)))⟩
          st.idx,
        repo := { st.repo with
          work := amInsert p
            (conflictText cur (readBlobContent st.repo.objects dc) mer
              (readBlobContent st.repo.objects dm)) st.repo.work,
          objects := amInsert
            (calculateHash (serializeBlob (conflictText cur
              (readBlobContent st.repo.objects dc) mer (readBlobContent st.repo.objects dm))))
            (serializeBlob (conflictText cur (readBlobContent st.repo.objects dc) mer
              (readBlobContent st.repo.objects dm)))
            st.repo.objects } } := by
  simp [mergeStep, hc, hm, hne, hashObject, writeObject]

/-- Every step can only insert into the object store, so present keys
stay present. -/
theorem mergeStep_objects_monotone (cur mer : Bytes) (cf mf : Assoc Bytes) (st : MergeSt)
    (q : Bytes) {k : Bytes} (hk : (amFind k st.repo.objects).isSome = true) :
    (amFind k (mergeStep cur mer cf mf st q).repo.objects).isSome = true := by
  rcases hc : amFind q cf with _ | dc <;> rcases hm : amFind q mf with _ | dm
  · simpa [mergeStep, hc, hm] using hk
  · simpa [mergeStep, hc, hm] using hk
  · by_cases hw : amFind q st.repo.work = none <;> simpa [mergeStep, hc, hm, hw] using hk
  · by_cases hd : dc = dm
    · simpa [mergeStep, hc, hm, hd] using hk
    · rw [mergeStep_conflict_eq cur mer cf mf st hc hm hd]
      exact amFind_isSome_amInsert _ _ _ _ hk

theorem mergeLoop_objects_monotone (cur mer : Bytes) (cf mf : Assoc Bytes) (st : MergeSt)
    (ps : List Bytes) {k : Bytes} (hk : (amFind k st.repo.objects).isSome = true) :
    (amFind k (mergeLoop cur mer cf mf st ps).repo.objects).isSome = true := by
  induction ps generalizing st with
  | nil => exact hk
  | cons q ps ih =>
    exact ih (mergeStep cur mer cf mf st q) (mergeStep_objects_monotone cur mer cf mf st q hk)

/-! ### C4: conflicting paths produce marker files and no merge commit -/

/-- C4: when a path is present in both snapshots with differing blob
digests, the merge reports it among the conflicting paths, writes the
verbatim conflict-marker file into the working tree, stages the marker
file as a freshly hashed blob in the index, stores that blob, and
creates no merge commit (the refs are untouched).  The two content
hypotheses name the blob contents as read at that path's loop iteration;
they follow from the store lookups of the two digests, which earlier
iterations cannot disturb unless a hash collision rewrites one of the
two blobs. -/
theorem merge_conflicting_path_markers (ts : Nat) (cur mer curC merC : Bytes) (r : Repo)
    (cf mf : Assoc Bytes) (p dc dm cc cm : Bytes) (l1 l2 : List Bytes)
    (hct : (readCommit r.objects curC).tree ≠ [])
    (hmt : (readCommit r.objects merC).tree ≠ [])
    (hcf : readTreeToMap r.objects (readCommit r.objects curC).tree = cf)
    (hmf : readTreeToMap r.objects (readCommit r.objects merC).tree = mf)
    (hpc : amFind p cf = some dc) (hpm : amFind p mf = some dm) (hdne : dc ≠ dm)
    (hsplit : keySet (amKeys cf ++ amKeys mf) = l1 ++ p :: l2)
    (hcc : readBlobContent
        (mergeLoop cur mer cf mf ⟨[], [], (readIndexSt r).2⟩ l1).repo.objects dc = cc)
    (hcm : readBlobContent
        (mergeLoop cur mer cf mf ⟨[], [], (readIndexSt r).2⟩ l1).repo.objects dm = cm) :
    (mergeMain ts cur mer curC merC r).1 =
      .conflicted ((l1 ++ p :: l2).filter (isConflictPath cf mf)) ∧
    p ∈ (l1 ++ p :: l2).filter (isConflictPath cf mf) ∧
    amFind p (mergeMain ts cur mer curC merC r).2.work =
      some (conflictText cur cc mer cm) ∧
    (∃ midx, (mergeMain ts cur mer curC merC r).2.indexCache = some midx ∧
      amFind p midx =
        some ⟨m644, calculateHash (serializeBlob (conflictText cur cc mer cm))⟩) ∧
    (amFind (calculateHash (serializeBlob (conflictText cur cc mer cm)))
        (mergeMain ts cur mer curC merC r).2.objects).isSome = true ∧
    (mergeMain ts cur mer curC merC r).2.refs = r.refs := by
  have hnd : (l1 ++ p :: l2).Nodup := by
    rw [← hsplit]; exact keysSorted_nodup (keysSorted_keySet _)
  have hpl2 : p ∉ l2 := (List.nodup_cons.mp hnd.of_append_right).1
  -- decompose the loop at p
  have hdecomp : mergeLoop cur mer cf mf ⟨[], [], (readIndexSt r).2⟩ (l1 ++ p :: l2) =
      mergeLoop cur mer cf mf
        (mergeStep cur mer cf mf (mergeLoop cur mer cf mf ⟨[], [], (readIndexSt r).2⟩ l1) p)
        l2 := by
    unfold mergeLoop
    rw [List.foldl_append, List.foldl_cons]
  -- the conflict step at p, with the contents read there
  have hstep : mergeStep cur mer cf mf
        (mergeLoop cur mer cf mf ⟨[], [], (readIndexSt r).2⟩ l1) p =
      { conflicts := (mergeLoop cur mer cf mf ⟨[], [], (readIndexSt r).2⟩ l1).conflicts ++ [p],
        idx := amInsert p ⟨m644, calculateHash (serializeBlob (conflictText cur cc mer cm))⟩
          (mergeLoop cur mer cf mf ⟨[], [], (readIndexSt r).2⟩ l1).idx,
        repo := { (mergeLoop cur mer cf mf ⟨[], [], (readIndexSt r).2⟩ l1).repo with
          work := amInsert p (conflictText cur cc mer cm)
            (mergeLoop cur mer cf mf ⟨[], [], (readIndexSt r).2⟩ l1).repo.work,
          objects := amInsert (calculateHash (serializeBlob (conflictText cur cc mer cm)))
            (serializeBlob (conflictText cur cc mer cm))
            (mergeLoop cur mer cf mf ⟨[], [], (readIndexSt r).2⟩ l1).repo.objects } } := by
    rw [mergeStep_conflict_eq cur mer cf mf _ hpc hpm hdne, hcc, hcm]
  -- the final conflicts list
  have hconf : (mergeLoop cur mer cf mf ⟨[], [], (readIndexSt r).2⟩ (l1 ++ p :: l2)).conflicts =
      (l1 ++ p :: l2).filter (isConflictPath cf mf) := by
    rw [mergeLoop_conflicts]
    simp
  have hmemp : p ∈ (l1 ++ p :: l2).filter (isConflictPath cf mf) :=
    List.mem_filter.mpr ⟨by simp, by simp [isConflictPath, hpc, hpm, hdne]⟩
  have hconfne : (mergeLoop cur mer cf mf ⟨[], [], (readIndexSt r).2⟩
      (l1 ++ p :: l2)).conflicts ≠ [] := by
    rw [hconf]
    exact List.ne_nil_of_mem hmemp
  -- the overall result
  have hkey : mergeMain ts cur mer curC merC r =
      (.conflicted
          ((mergeLoop cur mer cf mf ⟨[], [], (readIndexSt r).2⟩ (l1 ++ p :: l2)).conflicts),
        writeIndexSt
          (mergeLoop cur mer cf mf ⟨[], [], (readIndexSt r).2⟩ (l1 ++ p :: l2)).idx
          (mergeLoop cur mer cf mf ⟨[], [], (readIndexSt r).2⟩ (l1 ++ p :: l2)).repo) := by
    unfold mergeMain
    rw [if_neg (by simp [hct, hmt])]
    dsimp only
    rw [hcf, hmf, hsplit, if_neg hconfne]
  rw [hkey]
  -- preservation of the entries written at p through the rest of the loop
  have hpres := mergeLoop_preserves_other cur mer cf mf
    (mergeStep cur mer cf mf (mergeLoop cur mer cf mf ⟨[], [], (readIndexSt r).2⟩ l1) p)
    l2 hpl2
  refine ⟨by rw [hconf], hmemp, ?_, ⟨_, rfl, ?_⟩, ?_, ?_⟩
  · show amFind p
        (mergeLoop cur mer cf mf ⟨[], [], (readIndexSt r).2⟩ (l1 ++ p :: l2)).repo.work =
      some (conflictText cur cc mer cm)
    rw [hdecomp, hpres.1, hstep]
    exact amFind_amInsert_self _ _ _
  · show amFind p
        (mergeLoop cur mer cf mf ⟨[], [], (readIndexSt r).2⟩ (l1 ++ p :: l2)).idx = _
    rw [hdecomp, hpres.2, hstep]
    exact amFind_amInsert_self _ _ _
  · show (amFind (calculateHash (serializeBlob (conflictText cur cc mer cm)))
        (mergeLoop cur mer cf mf ⟨[], [], (readIndexSt r).2⟩
          (l1 ++ p :: l2)).repo.objects).isSome = true
    rw [hdecomp]
    refine mergeLoop_objects_monotone cur mer cf mf _ l2 ?_
    rw [hstep]
    simp [amFind_amInsert_self]
  · show (mergeLoop cur mer cf mf ⟨[], [], (readIndexSt r).2⟩
        (l1 ++ p :: l2)).repo.refs = r.refs
    rw [(mergeLoop_repo_frame cur mer cf mf _ _).1]
    exact (readIndexSt_frame r).2.1

/-- Store objects for a two-branch demonstration repository: two commits
whose trees both hold a.txt, with differing blob digests, plus a third
commit sharing the first tree. -/
def demoMergeObjects : Store :=
  [(ascii "c1", mkCommitObject (ascii "t1") [] 0 (ascii "m1")),
   (ascii "c2", mkCommitObject (ascii "t2") [] 0 (ascii "m2")),
   (ascii "c3", mkCommitObject (ascii "t1") [] 0 (ascii "m3")),
   (ascii "t1", mkTreeObject [(ascii "a.txt", ⟨m644, ascii "d1"⟩)]),
   (ascii "t2", mkTreeObject [(ascii "a.txt", ⟨m644, ascii "d2"⟩)]),
   (ascii "d1", ascii "blob 1" ++ 0 :: ascii "A"),
   (ascii "d2", ascii "blob 1" ++ 0 :: ascii "B")]

/-- The demonstration repository on branch main. -/
def demoMergeRepo : Repo :=
  ⟨demoMergeObjects, none, none, [], some (ascii "ref: refs/heads/main"),
    [(ascii "dev", ascii "c2"), (ascii "main", ascii "c1")]⟩

/-- Witness for C4: merging dev (a.txt = B) into main (a.txt = A). -/
theorem merge_conflicting_path_markers_witness :
    ((readCommit demoMergeRepo.objects (ascii "c1")).tree ≠ [] ∧
      (readCommit demoMergeRepo.objects (ascii "c2")).tree ≠ [] ∧
      readTreeToMap demoMergeRepo.objects (readCommit demoMergeRepo.objects (ascii "c1")).tree =
        [(ascii "a.txt", ascii "d1")] ∧
      readTreeToMap demoMergeRepo.objects (readCommit demoMergeRepo.objects (ascii "c2")).tree =
        [(ascii "a.txt", ascii "d2")] ∧
      amFind (ascii "a.txt") [(ascii "a.txt", ascii "d1")] = some (ascii "d1") ∧
      amFind (ascii "a.txt") [(ascii "a.txt", ascii "d2")] = some (ascii "d2") ∧
      (ascii "d1" : Bytes) ≠ ascii "d2" ∧
      keySet (amKeys [(ascii "a.txt", ascii "d1")] ++ amKeys [(ascii "a.txt", ascii "d2")]) =
        [] ++ ascii "a.txt" :: [] ∧
      readBlobContent
          (mergeLoop (ascii "main") (ascii "dev") [(ascii "a.txt", ascii "d1")]
            [(ascii "a.txt", ascii "d2")] ⟨[], [], (readIndexSt demoMergeRepo).2⟩
            []).repo.objects (ascii "d1") = ascii "A" ∧
      readBlobContent
          (mergeLoop (ascii "main") (ascii "dev") [(ascii "a.txt", ascii "d1")]
            [(ascii "a.txt", ascii "d2")] ⟨[], [], (readIndexSt demoMergeRepo).2⟩
            []).repo.objects (ascii "d2") = ascii "B") ∧
      (mergeMain 0 (ascii "main") (ascii "dev") (ascii "c1") (ascii "c2") demoMergeRepo).1 =
        .conflicted (([] ++ ascii "a.txt" :: []).filter
          (isConflictPath [(ascii "a.txt", ascii "d1")] [(ascii "a.txt", ascii "d2")])) :=
  ⟨⟨by decide, by decide, by decide, by decide, by decide, by decide, by decide, by decide,
      by decide, by decide⟩,
    (merge_conflicting_path_markers 0 (ascii "main") (ascii "dev") (ascii "c1") (ascii "c2")
      demoMergeRepo [(ascii "a.txt", ascii "d1")] [(ascii "a.txt", ascii "d2")]
      (ascii "a.txt") (ascii "d1") (ascii "d2") (ascii "A") (ascii "B") [] []
      (by decide) (by decide) (by decide) (by decide) (by decide) (by decide) (by decide)
      (by decide) (by decide) (by decide)).1⟩

/-! ### C8: a conflict-free merge creates a two-parent commit -/

/-- The parent header lines of a merge commit object are exactly the two
tips, current first, merged second. -/
theorem commitParentLines_mkMergeCommitObject (t p1 p2 : Bytes) (ts : Nat)
    (mergeBranch curBranch : Bytes) (ht : isTokenB t) (hp1 : isTokenB p1)
    (hp2 : isTokenB p2) :
    commitParentLines (mkMergeCommitObject t p1 p2 ts mergeBranch curBranch) = [p1, p2] := by
  unfold commitParentLines mkMergeCommitObject
  dsimp only
  rw [splitNull_object (by decide) _ _]
  dsimp only
  rw [headerSplit_mergeCommitPayload t p1 p2 ts mergeBranch curBranch ht hp1 hp2]
  dsimp only
  simp only [List.filterMap_cons, List.filterMap_nil]
  rw [show ascii "tree " ++ t = ascii "tree" ++ 32 :: t from rfl,
    @tokensB_head (ascii "tree") (by decide) (by decide) t,
    show ascii "parent " ++ p1 = ascii "parent" ++ 32 :: p1 from rfl,
    @tokensB_head (ascii "parent") (by decide) (by decide) p1,
    show ascii "parent " ++ p2 = ascii "parent" ++ 32 :: p2 from rfl,
    @tokensB_head (ascii "parent") (by decide) (by decide) p2,
    show ascii "author " ++ authorLine ts = ascii "author" ++ 32 :: authorLine ts from rfl,
    @tokensB_head (ascii "author") (by decide) (by decide) (authorLine ts),
    show ascii "committer " ++ authorLine ts =
      ascii "committer" ++ 32 :: authorLine ts from rfl,
    @tokensB_head (ascii "committer") (by decide) (by decide) (authorLine ts),
    tokensB_single (fun x hx => (hp1.2 x hx).1) hp1.1,
    tokensB_single (fun x hx => (hp2.2 x hx).1) hp2.1]
  simp [List.filterMap_cons, show ascii "tree" ≠ ascii "parent" by decide,
    show ascii "author" ≠ ascii "parent" by decide,
    show ascii "committer" ≠ ascii "parent" by decide]

/-- C8: with no conflicting path in the union of the two snapshots, the
merge synthesizes a tree from the merged index, writes a commit object
whose parent lines are the current tip first and the merged tip second,
advances the current branch ref to the new digest, and reports that
digest. -/
theorem merge_no_conflicts_two_parent_commit (ts : Nat) (cur mer curC merC : Bytes)
    (r : Repo) (cf mf : Assoc Bytes)
    (hct : (readCommit r.objects curC).tree ≠ [])
    (hmt : (readCommit r.objects merC).tree ≠ [])
    (hcf : readTreeToMap r.objects (readCommit r.objects curC).tree = cf)
    (hmf : readTreeToMap r.objects (readCommit r.objects merC).tree = mf)
    (hnc : ∀ q ∈ keySet (amKeys cf ++ amKeys mf), isConflictPath cf mf q = false)
    (hcurtok : isTokenB curC) (hmertok : isTokenB merC) :
    (mergeMain ts cur mer curC merC r).1 =
      .merged (calculateHash (mkMergeCommitObject
        (calculateHash (mkTreeObject
          (mergeLoop cur mer cf mf ⟨[], [], (readIndexSt r).2⟩
            (keySet (amKeys cf ++ amKeys mf))).idx))
        curC merC ts mer cur)) ∧
    amFind cur (mergeMain ts cur mer curC merC r).2.refs =
      some (calculateHash (mkMergeCommitObject
        (calculateHash (mkTreeObject
          (mergeLoop cur mer cf mf ⟨[], [], (readIndexSt r).2⟩
            (keySet (amKeys cf ++ amKeys mf))).idx))
        curC merC ts mer cur)) ∧
    amFind (calculateHash (mkMergeCommitObject
        (calculateHash (mkTreeObject
          (mergeLoop cur mer cf mf ⟨[], [], (readIndexSt r).2⟩
            (keySet (amKeys cf ++ amKeys mf))).idx))
        curC merC ts mer cur))
      (mergeMain ts cur mer curC merC r).2.objects =
      some (mkMergeCommitObject
        (calculateHash (mkTreeObject
          (mergeLoop cur mer cf mf ⟨[], [], (readIndexSt r).2⟩
            (keySet (amKeys cf ++ amKeys mf))).idx))
        curC merC ts mer cur) ∧
    commitParentLines (mkMergeCommitObject
        (calculateHash (mkTreeObject
          (mergeLoop cur mer cf mf ⟨[], [], (readIndexSt r).2⟩
            (keySet (amKeys cf ++ amKeys mf))).idx))
        curC merC ts mer cur) = [curC, merC] ∧
    (parseCommit (mkMergeCommitObject
        (calculateHash (mkTreeObject
          (mergeLoop cur mer cf mf ⟨[], [], (readIndexSt r).2⟩
            (keySet (amKeys cf ++ amKeys mf))).idx))
        curC merC ts mer cur)).parent = merC := by
  have hconfnil : (mergeLoop cur mer cf mf ⟨[], [], (readIndexSt r).2⟩
      (keySet (amKeys cf ++ amKeys mf))).conflicts = [] := by
    rw [mergeLoop_conflicts]
    simp only [List.nil_append]
    exact List.filter_eq_nil_iff.mpr (fun q hq => by simp [hnc q hq])
  have httok : isTokenB (calculateHash (mkTreeObject
      (mergeLoop cur mer cf mf ⟨[], [], (readIndexSt r).2⟩
        (keySet (amKeys cf ++ amKeys mf))).idx)) := isTokenB_calculateHash _
  have hkey : mergeMain ts cur mer curC merC r =
      (.merged (calculateHash (mkMergeCommitObject
          (calculateHash (mkTreeObject
            (mergeLoop cur mer cf mf ⟨[], [], (readIndexSt r).2⟩
              (keySet (amKeys cf ++ amKeys mf))).idx))
          curC merC ts mer cur)),
        { writeIndexSt
            (mergeLoop cur mer cf mf ⟨[], [], (readIndexSt r).2⟩
              (keySet (amKeys cf ++ amKeys mf))).idx
            (mergeLoop cur mer cf mf ⟨[], [], (readIndexSt r).2⟩
              (keySet (amKeys cf ++ amKeys mf))).repo with
          objects := amInsert
            (calculateHash (mkMergeCommitObject
              (calculateHash (mkTreeObject
                (mergeLoop cur mer cf mf ⟨[], [], (readIndexSt r).2⟩
                  (keySet (amKeys cf ++ amKeys mf))).idx))
              curC merC ts mer cur))
            (mkMergeCommitObject
              (calculateHash (mkTreeObject
                (mergeLoop cur mer cf mf ⟨[], [], (readIndexSt r).2⟩
                  (keySet (amKeys cf ++ amKeys mf))).idx))
              curC merC ts mer cur)
            (amInsert
              (calculateHash (mkTreeObject
                (mergeLoop cur mer cf mf ⟨[], [], (readIndexSt r).2⟩
                  (keySet (amKeys cf ++ amKeys mf))).idx))
              (mkTreeObject
                (mergeLoop cur mer cf mf ⟨[], [], (readIndexSt r).2⟩
                  (keySet (amKeys cf ++ amKeys mf))).idx)
              (writeIndexSt
                (mergeLoop cur mer cf mf ⟨[], [], (readIndexSt r).2⟩
                  (keySet (amKeys cf ++ amKeys mf))).idx
                (mergeLoop cur mer cf mf ⟨[], [], (readIndexSt r).2⟩
                  (keySet (amKeys cf ++ amKeys mf))).repo).objects),
          refs := amInsert cur
            (calculateHash (mkMergeCommitObject
              (calculateHash (mkTreeObject
                (mergeLoop cur mer cf mf ⟨[], [], (readIndexSt r).2⟩
                  (keySet (amKeys cf ++ amKeys mf))).idx))
              curC merC ts mer cur))
            (writeIndexSt
              (mergeLoop cur mer cf mf ⟨[], [], (readIndexSt r).2⟩
                (keySet (amKeys cf ++ amKeys mf))).idx
              (mergeLoop cur mer cf mf ⟨[], [], (readIndexSt r).2⟩
                (keySet (amKeys cf ++ amKeys mf))).repo).refs }) := by
    unfold mergeMain
    rw [if_neg (by simp [hct, hmt])]
    dsimp only
    rw [hcf, hmf]
    rw [if_pos hconfnil]
    generalize mergeLoop cur mer cf mf ⟨[], [], (readIndexSt r).2⟩
      (keySet (amKeys cf ++ amKeys mf)) = stF
    unfold writeTreeSt readIndexSt writeIndexSt writeObject
    dsimp only
  rw [hkey]
  refine ⟨rfl, ?_, ?_, ?_, ?_⟩
  · exact amFind_amInsert_self _ _ _
  · exact amFind_amInsert_self _ _ _
  · exact commitParentLines_mkMergeCommitObject _ curC merC ts mer cur httok hcurtok hmertok
  · exact (parseCommit_mkMergeCommitObject _ curC merC ts mer cur httok hcurtok hmertok).2

/-- Witness for C8: merging a branch whose tip shares the tree of the
current tip (zero conflicts). -/
theorem merge_no_conflicts_two_parent_commit_witness :
    ((readCommit demoMergeRepo.objects (ascii "c1")).tree ≠ [] ∧
      (readCommit demoMergeRepo.objects (ascii "c3")).tree ≠ [] ∧
      readTreeToMap demoMergeRepo.objects (readCommit demoMergeRepo.objects (ascii "c1")).tree =
        [(ascii "a.txt", ascii "d1")] ∧
      readTreeToMap demoMergeRepo.objects (readCommit demoMergeRepo.objects (ascii "c3")).tree =
        [(ascii "a.txt", ascii "d1")] ∧
      (∀ q ∈ keySet (amKeys [(ascii "a.txt", ascii "d1")] ++
          amKeys [(ascii "a.txt", ascii "d1")]),
        isConflictPath [(ascii "a.txt", ascii "d1")] [(ascii "a.txt", ascii "d1")] q = false) ∧
      isTokenB (ascii "c1") ∧ isTokenB (ascii "c3")) ∧
      (mergeMain 3 (ascii "main") (ascii "feat") (ascii "c1") (ascii "c3") demoMergeRepo).1 =
        .merged (calculateHash (mkMergeCommitObject
          (calculateHash (mkTreeObject
            (mergeLoop (ascii "main") (ascii "feat") [(ascii "a.txt", ascii "d1")]
              [(ascii "a.txt", ascii "d1")] ⟨[], [], (readIndexSt demoMergeRepo).2⟩
              (keySet (amKeys [(ascii "a.txt", ascii "d1")] ++
                amKeys [(ascii "a.txt", ascii "d1")]))).idx))
          (ascii "c1") (ascii "c3") 3 (ascii "feat") (ascii "main"))) :=
  ⟨⟨by decide, by decide, by decide, by decide, by decide, by decide, by decide⟩,
    (merge_no_conflicts_two_parent_commit 3 (ascii "main") (ascii "feat") (ascii "c1")
      (ascii "c3") demoMergeRepo [(ascii "a.txt", ascii "d1")] [(ascii "a.txt", ascii "d1")]
      (by decide) (by decide) (by decide) (by decide) (by decide) (by decide) (by decide)).1⟩

/-! ### C5: the integrity walk -/

/-- Iterate the parent step of the walk: after enough steps a rooted
chain reaches the empty digest. -/
def parentIter (σ : Store) : Nat → Bytes → Bytes
  | 0, h => h
  | fuel + 1, h =>
    if h = [] then [] else parentIter σ fuel (parseCommit (readObject σ h)).parent

/-- Objects counted by the walk along a chain: per commit, its tree
entry count plus one. -/
def chainObjects (σ : Store) (chain : List Bytes) : Nat :=
  (chain.map (fun c =>
    (readTreeToMap σ (parseCommit (readObject σ c)).tree).length + 1)).sum

theorem parentChain_stable (σ : Store) (fuel : Nat) (h : Bytes)
    (hdone : parentIter σ fuel h = []) :
    parentChain σ (fuel + 1) h = parentChain σ fuel h := by
  induction fuel generalizing h with
  | zero =>
    have hh : h = [] := hdone
    subst hh
    rfl
  | succ fuel ih =>
    by_cases hh : h = []
    · subst hh; rfl
    · have hdone2 : parentIter σ fuel (parseCommit (readObject σ h)).parent = [] := by
        simpa [parentIter, hh] using hdone
      show (if h = [] then [] else _) = (if h = [] then [] else _)
      rw [if_neg hh, if_neg hh, ih _ hdone2]

theorem verifyChain_ok (σ : Store) (fuel : Nat) (h : Bytes) (c0 o0 : Nat)
    (hdone : parentIter σ fuel h = [])
    (hok : ∀ c ∈ parentChain σ (fuel + 1) h, verifyCommit σ c = none) :
    verifyChain σ (fuel + 1) h c0 o0 =
      .ok (c0 + (parentChain σ (fuel + 1) h).length)
        (o0 + chainObjects σ (parentChain σ (fuel + 1) h)) := by
  induction fuel generalizing h c0 o0 with
  | zero =>
    have hh : h = [] := hdone
    subst hh
    simp [verifyChain, parentChain, chainObjects]
  | succ fuel ih =>
    by_cases hh : h = []
    · subst hh
      simp [verifyChain, parentChain, chainObjects]
    · have hchain : parentChain σ (fuel + 1 + 1) h =
          h :: parentChain σ (fuel + 1) (parseCommit (readObject σ h)).parent := by
        simp [parentChain, hh]
      have hdone2 : parentIter σ fuel (parseCommit (readObject σ h)).parent = [] := by
        simpa [parentIter, hh] using hdone
      have hvh : verifyCommit σ h = none := hok h (by rw [hchain]; simp)
      have hok2 : ∀ c ∈ parentChain σ (fuel + 1) (parseCommit (readObject σ h)).parent,
          verifyCommit σ c = none := by
        intro c hc
        exact hok c (by rw [hchain]; simp [hc])
      show (if h = [] then WalkRes.ok c0 o0 else _) = _
      rw [if_neg hh, hvh]
      rw [ih _ _ _ hdone2 hok2, hchain]
      simp [chainObjects]
      constructor <;> omega

theorem verifyChain_failed (σ : Store) (fuel : Nat) (h : Bytes) (c0 o0 : Nat)
    (pre : List Bytes) (c : Bytes) (post : List Bytes) (e : VerErr)
    (hchain : parentChain σ fuel h = pre ++ c :: post)
    (hpre : ∀ c2 ∈ pre, verifyCommit σ c2 = none)
    (hc : verifyCommit σ c = some e) :
    verifyChain σ fuel h c0 o0 = .failed e := by
  induction fuel generalizing h pre c0 o0 with
  | zero => simp [parentChain] at hchain
  | succ fuel ih =>
    by_cases hh : h = []
    · subst hh; simp [parentChain] at hchain
    · have hchain2 : h :: parentChain σ fuel (parseCommit (readObject σ h)).parent =
          pre ++ c :: post := by
        simpa [parentChain, hh] using hchain
      cases pre with
      | nil =>
        simp only [List.nil_append] at hchain2
        have hch : c = h := (List.cons.injEq _ _ _ _ ▸ hchain2).1.symm
        subst hch
        show (if c = [] then WalkRes.ok c0 o0 else _) = _
        rw [if_neg hh, hc]
      | cons a pre2 =>
        simp only [List.cons_append, List.cons.injEq] at hchain2
        obtain ⟨hah, htail⟩ := hchain2
        subst hah
        have hvh : verifyCommit σ h = none := hpre h (by simp)
        show (if h = [] then WalkRes.ok c0 o0 else _) = _
        rw [if_neg hh, hvh]
        exact ih _ _ _ pre2 htail (fun c2 h2 => hpre c2 (by simp [h2]))

/-- C5 (amended): the walk starts at the HEAD commit and follows the
parent field parsed from each commit — the digest of the last "parent"
header line, so for a merge commit the SECOND parent, not the first.
Along that chain every commit is re-verified (stored bytes against their
key, the tree, every blob of the tree); the first failing commit aborts
the walk with the error naming the offending object, and a fully intact
chain reports the number of commits and of tree-plus-blob objects
checked. -/
theorem verify_integrity_last_parent_walk (r : Repo) (fuel : Nat)
    (hfuel : parentIter r.objects fuel (getHeadCommit r) = []) :
    ((∀ c ∈ parentChain r.objects (fuel + 1) (getHeadCommit r),
        verifyCommit r.objects c = none) →
      verifyRepositoryIntegrity r (fuel + 1) =
        .ok (parentChain r.objects (fuel + 1) (getHeadCommit r)).length
          (chainObjects r.objects (parentChain r.objects (fuel + 1) (getHeadCommit r)))) ∧
    (∀ (pre : List Bytes) (c : Bytes) (post : List Bytes) (e : VerErr),
      parentChain r.objects (fuel + 1) (getHeadCommit r) = pre ++ c :: post →
      (∀ c2 ∈ pre, verifyCommit r.objects c2 = none) →
      verifyCommit r.objects c = some e →
      verifyRepositoryIntegrity r (fuel + 1) = .failed e) ∧
    (∀ (t p1 p2 : Bytes) (ts2 : Nat) (mb cb : Bytes),
      isTokenB t → isTokenB p1 → isTokenB p2 →
      commitParentLines (mkMergeCommitObject t p1 p2 ts2 mb cb) = [p1, p2] ∧
      (parseCommit (mkMergeCommitObject t p1 p2 ts2 mb cb)).parent = p2) := by
  refine ⟨?_, ?_, ?_⟩
  · intro hok
    have := verifyChain_ok r.objects fuel (getHeadCommit r) 0 0 hfuel hok
    simpa [verifyRepositoryIntegrity] using this
  · intro pre c post e hchain hpre hc
    exact verifyChain_failed r.objects (fuel + 1) (getHeadCommit r) 0 0 pre c post e
      hchain hpre hc
  · intro t p1 p2 ts2 mb cb ht hp1 hp2
    exact ⟨commitParentLines_mkMergeCommitObject t p1 p2 ts2 mb cb ht hp1 hp2,
      (parseCommit_mkMergeCommitObject t p1 p2 ts2 mb cb ht hp1 hp2).2⟩

/-- The concrete store of the counterexample: an empty tree, two root
commits with that tree, and a merge commit carrying both as parents. -/
def c5T : Bytes := ascii "dc76b64005fbbafc15cb9618595eb6b5b0df74ad"

/-- Digest of the first root commit. -/
def c5h1 : Bytes := ascii "ae66c492623fe1c6a794ec70f12cc4306ab2f326"

/-- Digest of the second root commit. -/
def c5h2 : Bytes := ascii "c5a143e5cad6f36c5ca6e889fbed9e563857ae46"

/-- Digest of the merge commit. -/
def c5hM : Bytes := ascii "dbc8c8c18a1146a469e1f18c84e8499da684865a"

/-- The stored objects, each keyed by the digest the repository computes
for its bytes. -/
def c5Store : Store :=
  [(c5T, ascii "tree 0" ++ [0]),
   (c5h1, ascii "commit 49" ++ 0 :: (ascii "tree " ++ c5T ++ [10, 10] ++ ascii "a" ++ [10])),
   (c5h2, ascii "commit 49" ++ 0 :: (ascii "tree " ++ c5T ++ [10, 10] ++ ascii "b" ++ [10])),
   (c5hM, ascii "commit 145" ++ 0 ::
     (ascii "tree " ++ c5T ++ [10] ++ ascii "parent " ++ c5h1 ++ [10] ++
       ascii "parent " ++ c5h2 ++ [10, 10] ++ ascii "m" ++ [10]))]

/-- A repository whose detached HEAD points at the merge commit. -/
def c5Repo : Repo := ⟨c5Store, none, none, [], some c5hM, []⟩

/-- Counterexample for C5 as frozen: the stored merge commit lists its
first parent c5h1 and second parent c5h2, yet the integrity walk from
HEAD visits the merge commit and then the SECOND parent — the first
parent is never visited — because the parse keeps only the last parent
line.  The walk succeeds, verifying 2 commits and 2 objects, without
ever checking the first-parent root commit. -/
theorem verify_integrity_follows_second_parent :
    commitParentLines (readObject c5Repo.objects c5hM) = [c5h1, c5h2] ∧
    c5h1 ≠ c5h2 ∧
    parentChain c5Repo.objects 10 (getHeadCommit c5Repo) = [c5hM, c5h2] ∧
    c5h1 ∉ parentChain c5Repo.objects 10 (getHeadCommit c5Repo) ∧
    verifyRepositoryIntegrity c5Repo 10 = .ok 2 2 := by
  refine ⟨by decide, by decide, by decide, by decide, by decide⟩

/-- Witness for the amended C5 theorem on the counterexample store: the
chain from HEAD is intact, so the walk reports its counts. -/
theorem verify_integrity_last_parent_walk_witness :
    (parentIter c5Repo.objects 5 (getHeadCommit c5Repo) = [] ∧
      (∀ c ∈ parentChain c5Repo.objects 6 (getHeadCommit c5Repo),
        verifyCommit c5Repo.objects c = none)) ∧
      verifyRepositoryIntegrity c5Repo 6 =
        .ok (parentChain c5Repo.objects 6 (getHeadCommit c5Repo)).length
          (chainObjects c5Repo.objects (parentChain c5Repo.objects 6 (getHeadCommit c5Repo))) :=
  ⟨⟨by decide, by decide⟩,
    (verify_integrity_last_parent_walk c5Repo 5 (by decide)).1 (by decide)⟩

/-! ### C6: Merkle proofs -/

/-- The pairwise-fold rule exactly as the specification words it: fold
the leaf digest with each proof entry using hash(min(a,b) ++ max(a,b)).
Stated from the spec for comparison with the code's verifier. -/
def specProofFold (leafHash : Bytes) (proof : List Bytes) : Bytes :=
  proof.foldl (fun cur sib =>
    calculateHash (if bytesLt cur sib then cur ++ sib else sib ++ cur)) leafHash

/-- C6 (amended): verifyMerkleProof implements exactly the pairwise fold
rule of the specification — it succeeds precisely when folding the leaf
digest through the proof entries with hash(min ++ max) reproduces the
expected root digest.  The universal claim fails only because the tree
built from the working directory derives every directory digest with the
"merkle_dir" aggregate rule rather than this fold, so verifying a
genuine leaf against the built root digest returns false. -/
theorem merkle_verify_matches_pairwise_fold (fp fileHash : Bytes)
    (proof : List Bytes) (rootHash : Bytes) :
    verifyMerkleProof fp fileHash proof rootHash = true ↔
      specProofFold fileHash proof = rootHash := by
  simp [verifyMerkleProof, specProofFold]

/-- Witness: a trivial instance of the fold equivalence, the empty proof
accepting the leaf digest itself as the expected root. -/
theorem merkle_verify_matches_pairwise_fold_witness :
    verifyMerkleProof [] (ascii "ab") [] (ascii "ab") = true :=
  (merkle_verify_matches_pairwise_fold [] (ascii "ab") [] (ascii "ab")).mpr rfl

/-- The working directory of the counterexample: a single file a.txt
holding "x". -/
def c6FS : List FSEnt := [FSEnt.file (ascii "a.txt") (ascii "x")]

/-- The Merkle tree the repository builds from that directory. -/
def c6Tree : MerkleNode := buildFromWorkingDirectory 2 c6FS

/-- The leaf digest of a.txt: the blob digest of its content. -/
def c6H : Bytes := getFileHash (ascii "x")

/-- Counterexample for C6 as frozen: the built tree has exactly the one
genuine leaf ./a.txt with digest c6H, whose generated proof is empty, so
the pairwise fold yields the leaf digest itself; but the built root
digest is the "merkle_dir" aggregate hash, which differs, so
verifyMerkleProof rejects the genuine leaf against the built root. -/
theorem merkle_proof_fails_against_built_root :
    c6Tree.children = [MerkleNode.mk (ascii "./a.txt") true c6H []] ∧
    getMerkleProof c6Tree (ascii "./a.txt") = [] ∧
    specProofFold c6H (getMerkleProof c6Tree (ascii "./a.txt")) = c6H ∧
    c6Tree.hash =
      calculateHash (ascii "merkle_dir " ++ ascii "./a.txt" ++ 58 :: c6H ++ [59]) ∧
    c6H ≠ c6Tree.hash ∧
    verifyMerkleProof (ascii "./a.txt") c6H
      (getMerkleProof c6Tree (ascii "./a.txt")) c6Tree.hash = false := by
  refine ⟨rfl, rfl, rfl, rfl, by decide, by decide⟩

end minigit
